import Mathlib

/-!
Verification of the trace-buffer core of the perfetto repository
(src/src/tracing/core, class TraceBuffez).

The buffer implementation itself (trace_buffer.cc / trace_buffer.h) is not
part of the source tree we were given; only its unit tests
(src/src/tracing/core/trace_buffer_unittest.cc) are.  The definitions below
are therefore modelled from the specification (spec.md sections 3 and 4),
which describes the chunk record store, the chunk index, the packet parser,
the fragment stitcher / read iterator and the patch applier.
-/

namespace Perfetto

/-- Modelled from the spec: MAX_CHUNK_ID is the modulus of the per-writer
chunk_id counter (chunk ids are 32-bit and wrap naturally). -/
def kChunkIdModulus : Nat := 4294967296

/-- Modelled from the spec: the fixed chunk record header is 16 bytes. -/
def kChunkRecordHeaderSize : Nat := 16

/-- Modelled from the spec: patches are 4-byte overwrites. -/
def kPatchLen : Nat := 4

/-- Records are always a multiple of 16 bytes (spec section 3). -/
def align16 (n : Nat) : Nat := ((n + 15) / 16) * 16

/-- Modelled from the spec: signed modular distance between two chunk ids,
reduced into the range [-MAX_CHUNK_ID/2, +MAX_CHUNK_ID/2) (spec 4.2).
The result is (b - a) reduced; it is positive when a precedes b. -/
def cidSdist (a b : Nat) : Int :=
  (((b : Int) - (a : Int) + 2147483648) % 4294967296) - 2147483648

/-- Modelled from the spec: chunk id a strictly precedes chunk id b under the
signed-modular-distance comparison of spec 4.2. -/
def cidLt (a b : Nat) : Bool := decide (0 < cidSdist a b)

/-- The (producer_id, writer_id, chunk_id) triple identifying a chunk. -/
structure Key where
  producerId : Nat
  writerId : Nat
  chunkId : Nat
deriving DecidableEq, Repr

/-- Modelled from the spec: index ordering groups entries by
(producer_id, writer_id) with chunk_id as the minor key under
modular-distance comparison (spec 3, "Index"; spec 4.2). -/
def keyLt (a b : Key) : Bool :=
  if a.producerId ≠ b.producerId then decide (a.producerId < b.producerId)
  else if a.writerId ≠ b.writerId then decide (a.writerId < b.writerId)
  else cidLt a.chunkId b.chunkId

/-- Two keys belong to the same writer sequence. -/
def sameSeq (a b : Key) : Bool :=
  decide (a.producerId = b.producerId) && decide (a.writerId = b.writerId)

/-- Modelled from the spec: a chunk record as held by the index — key, the two
writer-sequence flag bits, the writer-supplied payload bytes, and the
location (offset, aligned record size) of the record in the store
(spec 3, "Chunk record" and "Index"). -/
structure ChunkRec where
  key : Key
  contPrev : Bool
  contNext : Bool
  payload : List Nat
  off : Nat
  recSize : Nat
deriving DecidableEq, Repr

/-! ### Varint and packet parsing (spec 4.3) -/

/-- Little-endian base-128 varint decoding: returns the decoded value and the
remaining bytes, or none when the bytes run out mid-varint. -/
def decodeVarint : List Nat → Option (Nat × List Nat)
  | [] => none
  | b :: rest =>
    if b < 128 then some (b, rest)
    else
      match decodeVarint rest with
      | some (v, rest2) => some (b % 128 + 128 * v, rest2)
      | none => none

/-- Fuel-driven loop of the varint encoder (with fuel at least n the fuel
never runs out). -/
def varintLoop (fuel n : Nat) : List Nat :=
  match fuel with
  | 0 => [n % 128]
  | f + 1 => if n < 128 then [n] else (n % 128 + 128) :: varintLoop f (n / 128)

/-- Little-endian base-128 varint encoding. -/
def encodeVarint (n : Nat) : List Nat := varintLoop n n

/-- Modelled from the spec: a packet is encoded inside the chunk payload as a
varint length followed by that many bytes (spec 3, "Chunk record"). -/
def encodePacket (c : List Nat) : List Nat := encodeVarint c.length ++ c

/-- Fuel-driven loop of the packet parser (the fuel only bounds recursion
depth; parsePackets below supplies enough fuel for any input). -/
def parseLoop : Nat → List Nat → Option (List (List Nat))
  | _, [] => some []
  | 0, _ :: _ => none
  | fuel + 1, b :: rest0 =>
    match decodeVarint (b :: rest0) with
    | none => none
    | some (len, rest) =>
      if len = 0 then
        if rest = [] then some [[]] else none
      else if rest.length < len then none
      else
        match parseLoop fuel (rest.drop len) with
        | none => none
        | some ps => some (rest.take len :: ps)

/-- Modelled from the spec: the packet parser of spec 4.3.  Parses the whole
chunk payload into the list of packet byte strings; returns none (error) when
a length overflows the chunk payload, when a length is zero with further
payload following (the malformed-chunk sentinel) or when a varint is
truncated. -/
def parsePackets (bytes : List Nat) : Option (List (List Nat)) :=
  parseLoop bytes.length bytes

/-! ### Fragment stitcher / read iterator (spec 4.4) -/

/-- A slice of a yielded packet (a fragment's payload bytes). -/
abbrev Slice := List Nat

/-- A complete trace packet, yielded as an ordered list of byte slices. -/
abbrev Packet := List Slice

/-- Modelled from the spec: the per-writer stitcher state of spec 4.4 — the
packets yielded so far, the optional carry-over fragments of an in-progress
packet, the previously visited chunk id (for gap detection) and whether the
sequence is stalled waiting for a missing successor. -/
structure SeqState where
  out : List Packet
  carry : Option (List Slice)
  prev : Option Nat
  stalled : Bool
deriving DecidableEq, Repr

/-- Emit the packets of a chunk that do not take part in joining a carry-over:
every packet is yielded on its own, except that the last one becomes the new
carry-over when the chunk's "last packet continues on next chunk" flag is
set. -/
def emitPackets (out : List Packet) (pkts : List Slice) (contNext : Bool) :
    List Packet × Option (List Slice) :=
  match pkts with
  | [] => (out, none)
  | [p] => if contNext then (out, some [p]) else (out ++ [[p]], none)
  | p :: q :: rest => emitPackets (out ++ [[p]]) (q :: rest) contNext

/-- Gap detection (spec 4.4 step 3): the chunk is unreachable when its id is
not the modular successor of the previously visited one. -/
def gapAt (s : SeqState) (cid : Nat) : Bool :=
  match s.prev with
  | none => false
  | some p => decide (cid ≠ (p + 1) % kChunkIdModulus)

/-- Modelled from the spec: one step of the fragment stitcher (spec 4.4).
A gap stalls the sequence for this read pass (STALLED_WAITING_SUCCESSOR).
A malformed chunk is discarded wholly and its trailing continues-on-next
flag is treated as invalid (spec 4.3 failure policy), which also breaks any
chain it was supposed to continue.  An empty chunk is transparent.  A first
packet flagged "continues from previous chunk" joins the carry-over, or is
skipped as an orphan when there is none. -/
def processChunk (s : SeqState) (ch : ChunkRec) : SeqState :=
  if s.stalled then s
  else if gapAt s ch.key.chunkId then { s with stalled := true }
  else
    match parsePackets ch.payload with
    | none => { out := s.out, carry := none, prev := some ch.key.chunkId, stalled := false }
    | some [] => { s with prev := some ch.key.chunkId }
    | some (p :: ps) =>
      match s.carry, ch.contPrev with
      | some frags, true =>
        if ps.isEmpty && ch.contNext then
          { out := s.out, carry := some (frags ++ [p]),
            prev := some ch.key.chunkId, stalled := false }
        else
          let r := emitPackets (s.out ++ [frags ++ [p]]) ps ch.contNext
          { out := r.1, carry := r.2, prev := some ch.key.chunkId, stalled := false }
      | some _, false =>
        let r := emitPackets s.out (p :: ps) ch.contNext
        { out := r.1, carry := r.2, prev := some ch.key.chunkId, stalled := false }
      | none, true =>
        let r := emitPackets s.out ps ch.contNext
        { out := r.1, carry := r.2, prev := some ch.key.chunkId, stalled := false }
      | none, false =>
        let r := emitPackets s.out (p :: ps) ch.contNext
        { out := r.1, carry := r.2, prev := some ch.key.chunkId, stalled := false }

/-- The initial stitcher state of a read pass (spec 4.4 begin_read: cursor at
the lowest chunk, carry-over cleared). -/
def initSeqState : SeqState := ⟨[], none, none, false⟩

/-- Modelled from the spec: the packets yielded for one writer sequence, given
that sequence's chunks in index (modular chunk-id) order. -/
def readSequence (chs : List ChunkRec) : List Packet :=
  (chs.foldl processChunk initSeqState).out

/-! ### Chunk index ordering (spec 4.2) -/

/-- Insert an entry into an index list sorted by keyLt, keeping existing
entries that precede it in front. -/
def insertEntry (e : ChunkRec) : List ChunkRec → List ChunkRec
  | [] => [e]
  | x :: xs => if keyLt x.key e.key then x :: insertEntry e xs else e :: x :: xs

/-- The index view of the ledger: entries sorted by (producer, writer,
modular chunk id), as the ordered map of spec 4.2 holds them. -/
def sortEntries : List ChunkRec → List ChunkRec
  | [] => []
  | x :: xs => insertEntry x (sortEntries xs)

/-- Split a key-sorted entry list into maximal runs of the same
(producer_id, writer_id) sequence. -/
def groupSeqs : List ChunkRec → List (List ChunkRec)
  | [] => []
  | c :: rest =>
    match groupSeqs rest with
    | [] => [[c]]
    | [] :: gs => [c] :: [] :: gs
    | (d :: ds) :: gs =>
      if sameSeq c.key d.key then (c :: d :: ds) :: gs
      else [c] :: (d :: ds) :: gs

/-! ### The trace buffer (spec 3 "Store"/"Index", spec 4.1) -/

/-- Modelled from the spec: the TraceBuffez state — the store capacity, the
write cursor, the chunk records currently present (the ledger, oldest first;
the ordered index of spec 4.2 is the sortEntries view of it) and the
"overwritten chunks" stat counter. -/
structure TraceBuffez where
  size : Nat
  wptr : Nat
  entries : List ChunkRec
  statsOverwritten : Nat
deriving DecidableEq, Repr

/-- Bytes remaining until the end of the store. -/
def TraceBuffez.sizeToEnd (t : TraceBuffez) : Nat := t.size - t.wptr

/-- Modelled from the spec: create(size) — allocate the region, size rounded
up to a multiple of 16, failing with INVALID_CONFIG when below 4 KiB
(spec 4.1). -/
def TraceBuffez.create (sz : Nat) : Option TraceBuffez :=
  if sz < 4096 then none
  else some { size := align16 sz, wptr := 0, entries := [], statsOverwritten := 0 }

/-- Whether the byte ranges [a, a+la) and [b, b+lb) overlap. -/
def rangesOverlap (a la b lb : Nat) : Bool :=
  decide (b < a + la) && decide (a < b + lb)

/-- Modelled from the spec: append / CopyChunkUntrusted (spec 4.1).  Computes
the aligned record size; fails when it alone exceeds the capacity
(PAYLOAD_TOO_LARGE); emits a padding record over the tail (evicting the DATA
records it overlaps) when the record does not fit before the end; evicts
every DATA record overlapping the written range; removes an earlier record
with the same key (overwrite-same-id tie-break); installs the new record and
advances the cursor.  Every displaced chunk increments the "overwritten
chunks" stat.  Returns the bytes consumed. -/
def TraceBuffez.appendChunk (t : TraceBuffez) (k : Key) (contPrev contNext : Bool)
    (payload : List Nat) : TraceBuffez × Option Nat :=
  let need := align16 (kChunkRecordHeaderSize + payload.length)
  if t.size < need then (t, none)
  else
    let wrap : Bool := decide (t.size - t.wptr < need)
    let wptr1 := if wrap then 0 else t.wptr
    let entries1 :=
      if wrap then
        t.entries.filter (fun e => !rangesOverlap e.off e.recSize t.wptr (t.size - t.wptr))
      else t.entries
    let ov1 :=
      if wrap then
        t.entries.countP (fun e => rangesOverlap e.off e.recSize t.wptr (t.size - t.wptr))
      else 0
    let entries2 := entries1.filter (fun e => !rangesOverlap e.off e.recSize wptr1 need)
    let ov2 := entries1.countP (fun e => rangesOverlap e.off e.recSize wptr1 need)
    let ov3 := entries2.countP (fun e => e.key = k)
    let entries3 := entries2.filter (fun e => !decide (e.key = k))
    let newE : ChunkRec := ⟨k, contPrev, contNext, payload, wptr1, need⟩
    ({ size := t.size, wptr := (wptr1 + need) % t.size,
       entries := entries3 ++ [newE],
       statsOverwritten := t.statsOverwritten + ov1 + ov2 + ov3 }, some need)

/-- Run a list of append requests (key, flags, payload) in order, collecting
each append's returned size. -/
def TraceBuffez.appendMany (t : TraceBuffez)
    (rs : List (Key × Bool × Bool × List Nat)) : TraceBuffez × List (Option Nat) :=
  match rs with
  | [] => (t, [])
  | r :: rest =>
    let step := t.appendChunk r.1 r.2.1 r.2.2.1 r.2.2.2
    let next := step.1.appendMany rest
    (next.1, step.2 :: next.2)

/-- Modelled from the spec: MaybePatchChunkContents / apply_patch (spec 4.5).
Mutates kPatchLen bytes at the given offset within the named chunk's payload;
returns true iff the chunk is present in the index and the patch lies within
the payload. -/
def TraceBuffez.maybePatchChunkContents (t : TraceBuffez) (p w c : Nat)
    (off : Nat) (patch : List Nat) : Bool × TraceBuffez :=
  match t.entries.find? (fun e => decide (e.key = ⟨p, w, c⟩)) with
  | none => (false, t)
  | some e =>
    if off + kPatchLen ≤ e.payload.length then
      (true,
       { t with entries := t.entries.map (fun e2 =>
           if e2.key = ⟨p, w, c⟩ then
             { e2 with payload :=
                 e2.payload.take off ++ patch.take kPatchLen ++
                   e2.payload.drop (off + kPatchLen) }
           else e2) })
    else (false, t)

/-- Modelled from the spec: BeginRead — compute the packets a full read pass
yields: walk the index in key order, sequence by sequence, feeding each
sequence's chunks to the fragment stitcher (spec 4.4). -/
def TraceBuffez.beginRead (t : TraceBuffez) : List Packet :=
  ((groupSeqs (sortEntries t.entries)).map readSequence).flatten

/-- The consumer-side state of a read pass: the packets not yet handed out. -/
structure ReadState where
  pending : List Packet
deriving DecidableEq, Repr

/-- Start a read pass on the buffer. -/
def TraceBuffez.beginReadState (t : TraceBuffez) : ReadState := ⟨t.beginRead⟩

/-- Modelled from the spec: ReadNextTracePacket — hand out the next complete
packet of the pass, or none when the pass is exhausted (spec 4.4, spec 6
"Consumer → service"). -/
def readNextTracePacket (s : ReadState) : Option Packet × ReadState :=
  match s.pending with
  | [] => (none, ⟨[]⟩)
  | p :: ps => (some p, ⟨ps⟩)

/-- A chunk holding exactly one fragment of a packet (its payload is the
encoded fragment), with the given continuation flags. -/
def fragChunk (p w cid : Nat) (cp cn : Bool) (content : List Nat) : ChunkRec :=
  ⟨⟨p, w, cid⟩, cp, cn, encodePacket content, 0, 0⟩

/-- The chunks after the first one of a fragmented packet: every chunk
continues from the previous one, and all but the last also continue on the
next (the matching flags of spec 4.4). -/
def mkTail (p w : Nat) : Nat → List (List Nat) → List ChunkRec
  | _, [] => []
  | cid, [f] => [fragChunk p w cid true false f]
  | cid, f :: f2 :: fs => fragChunk p w cid true true f :: mkTail p w (cid + 1) (f2 :: fs)

/-- A packet fragmented over frags.length consecutive chunks of one writer
sequence, with the matching continues-on-next / continues-from-previous
flags; a single-fragment packet is one unflagged chunk. -/
def mkFragChunks (p w cid : Nat) (frags : List (List Nat)) : List ChunkRec :=
  match frags with
  | [] => []
  | [f] => [fragChunk p w cid false false f]
  | f :: f2 :: fs => fragChunk p w cid false true f :: mkTail p w (cid + 1) (f2 :: fs)

/-! ### Claim C2: eviction is strictly FIFO in physical buffer order -/

/-- The position of a store offset on the ring, measured forward from the
write cursor: the oldest surviving record sits at the smallest position. -/
def ringPos (sz wp off : Nat) : Nat := if wp ≤ off then off - wp else off + sz - wp

/-- The layout invariant of the circular store: the entries, in order of
write time (oldest first), occupy disjoint, strictly advancing ring
intervals starting at ring position lo, each record lying inside the store
and never wrapping past the cursor. -/
def ChainPos (sz wp : Nat) : Nat → List ChunkRec → Prop
  | _, [] => True
  | lo, e :: es =>
    lo ≤ ringPos sz wp e.off ∧ ringPos sz wp e.off + e.recSize ≤ sz ∧
    0 < e.recSize ∧ e.off < sz ∧ e.off + e.recSize ≤ sz ∧
    ChainPos sz wp (ringPos sz wp e.off + e.recSize) es

theorem decodeVarint_length {bs rest : List Nat} {v : Nat}
    (h : decodeVarint bs = some (v, rest)) : rest.length < bs.length := by
  induction bs generalizing v rest with
  | nil => simp [decodeVarint] at h
  | cons b tl ih =>
    simp only [decodeVarint] at h
    split at h
    · cases h
      simp
    · split at h
      · cases h
        rename_i v2 rest2 heq
        have := ih heq
        simp
        omega
      · cases h

theorem varintLoop_congr :
    ∀ (f1 : Nat) {f2 n : Nat}, n ≤ f1 → n ≤ f2 → varintLoop f1 n = varintLoop f2 n := by
  intro f1
  induction f1 with
  | zero =>
    intro f2 n h1 _
    have hn : n = 0 := Nat.le_zero.mp h1
    subst hn
    cases f2 <;> simp [varintLoop]
  | succ g ih =>
    intro f2 n h1 h2
    by_cases hn : n < 128
    · rcases f2 with _ | g2
      · have : n = 0 := Nat.le_zero.mp h2
        subst this
        simp [varintLoop]
      · simp [varintLoop, hn]
    · rcases f2 with _ | g2
      · omega
      · simp only [varintLoop, if_neg hn]
        have hd1 : n / 128 ≤ g := by
          have hx : n / 128 < n := Nat.div_lt_self (by omega) (by omega)
          omega
        have hd2 : n / 128 ≤ g2 := by
          have hx : n / 128 < n := Nat.div_lt_self (by omega) (by omega)
          omega
        rw [ih hd1 hd2]

theorem encodeVarint_unfold (n : Nat) :
    encodeVarint n = if n < 128 then [n] else (n % 128 + 128) :: encodeVarint (n / 128) := by
  by_cases hn : n < 128
  · rcases n with _ | m
    · simp [encodeVarint, varintLoop]
    · simp [encodeVarint, varintLoop, hn]
  · have hpos : 0 < n := by omega
    rcases n with _ | m
    · omega
    · simp only [encodeVarint, varintLoop, if_neg hn]
      have hd1 : (m + 1) / 128 ≤ m := by
        have hx : (m + 1) / 128 < m + 1 := Nat.div_lt_self (by omega) (by omega)
        omega
      rw [varintLoop_congr m hd1 (Nat.le_refl _)]

theorem encodeVarint_ne_nil (n : Nat) : encodeVarint n ≠ [] := by
  rw [encodeVarint_unfold]
  split <;> simp

theorem decodeVarint_encode (n : Nat) (r : List Nat) :
    decodeVarint (encodeVarint n ++ r) = some (n, r) := by
  induction n using Nat.strong_induction_on with
  | _ n ih =>
    rw [encodeVarint_unfold]
    split
    · simp [decodeVarint, *]
    · rename_i h
      have hlt : n / 128 < n := Nat.div_lt_self (by omega) (by omega)
      simp only [List.cons_append, decodeVarint, List.append_eq]
      have hge : ¬ (n % 128 + 128 < 128) := by omega
      simp only [if_neg hge, ih (n / 128) hlt]
      have hmod : (n % 128 + 128) % 128 = n % 128 := by omega
      rw [hmod, Nat.mod_add_div n 128]

theorem parseLoop_congr :
    ∀ (f1 : Nat) {f2 : Nat} {bytes : List Nat}, bytes.length ≤ f1 →
      bytes.length ≤ f2 → parseLoop f1 bytes = parseLoop f2 bytes := by
  intro f1
  induction f1 with
  | zero =>
    intro f2 bytes h1 _
    rcases bytes with _ | ⟨b, tl⟩
    · cases f2 <;> rfl
    · simp at h1
  | succ g ih =>
    intro f2 bytes h1 h2
    rcases bytes with _ | ⟨b, tl⟩
    · cases f2 <;> rfl
    · rcases f2 with _ | g2
      · simp at h2
      · simp only [parseLoop]
        rcases hdec : decodeVarint (b :: tl) with _ | ⟨len, rest⟩
        · rfl
        · have hrest := decodeVarint_length hdec
          simp only [List.length_cons] at hrest h1 h2
          simp only []
          split
          · rfl
          · split
            · rfl
            · have hdl : (rest.drop len).length ≤ g := by
                simp only [List.length_drop]
                omega
              have hdl2 : (rest.drop len).length ≤ g2 := by
                simp only [List.length_drop]
                omega
              rw [ih hdl hdl2]

theorem parseLoop_eq_parsePackets {fuel : Nat} {bytes : List Nat}
    (h : bytes.length ≤ fuel) : parseLoop fuel bytes = parsePackets bytes :=
  parseLoop_congr fuel h (Nat.le_refl _)

theorem parsePackets_nil : parsePackets [] = some [] := rfl

theorem parsePackets_encode (c : List Nat) (hc : c ≠ []) (rest : List Nat)
    {ps : List (List Nat)} (hr : parsePackets rest = some ps) :
    parsePackets (encodePacket c ++ rest) = some (c :: ps) := by
  have hdec : decodeVarint (encodePacket c ++ rest) = some (c.length, c ++ rest) := by
    rw [encodePacket, List.append_assoc]
    exact decodeVarint_encode c.length (c ++ rest)
  rcases hList : encodePacket c ++ rest with _ | ⟨b, tl⟩
  · have : encodeVarint c.length ≠ [] := encodeVarint_ne_nil _
    rw [encodePacket] at hList
    rcases hEnc : encodeVarint c.length with _ | ⟨x, xs⟩
    · exact absurd hEnc this
    · rw [hEnc] at hList
      simp at hList
  · rw [← hList]
    show parseLoop (encodePacket c ++ rest).length (encodePacket c ++ rest) = _
    rcases hL : (encodePacket c ++ rest).length with _ | g
    · rw [hList] at hL
      simp at hL
    · rw [hList]
      simp only [parseLoop]
      rw [← hList, hdec]
      have hlen : c.length ≠ 0 := by
        intro h0
        exact hc (List.length_eq_zero.mp h0)
      simp only [if_neg hlen]
      have hlen2 : ¬ ((c ++ rest).length < c.length) := by
        simp
      simp only [if_neg hlen2]
      have htake : (c ++ rest).take c.length = c := List.take_left c rest
      have hdrop : (c ++ rest).drop c.length = rest := List.drop_left c rest
      rw [htake, hdrop]
      have hfits : rest.length ≤ g := by
        have h1 : 1 ≤ (encodeVarint c.length).length := by
          rcases hEnc : encodeVarint c.length with _ | ⟨x, xs⟩
          · exact absurd hEnc (encodeVarint_ne_nil _)
          · simp
        have h2 : 1 ≤ c.length := by
          rcases c with _ | ⟨c0, ctl⟩
          · exact absurd rfl hc
          · simp
        simp only [encodePacket, List.length_append] at hL
        omega
      rw [parseLoop_eq_parsePackets hfits, hr]

/-! ### Basic lemmas about the stitcher -/

theorem emitPackets_nil (out : List Packet) (cn : Bool) :
    emitPackets out [] cn = (out, none) := rfl

theorem emitPackets_false (out : List Packet) (pkts : List Slice) :
    emitPackets out pkts false = (out ++ pkts.map (fun p => [p]), none) := by
  induction pkts generalizing out with
  | nil => simp [emitPackets]
  | cons p rest ih =>
    rcases rest with _ | ⟨q, rest2⟩
    · simp [emitPackets]
    · rw [emitPackets, ih]
      simp

theorem emitPackets_true (out : List Packet) (front : List Slice) (q : Slice) :
    emitPackets out (front ++ [q]) true = (out ++ front.map (fun p => [p]), some [q]) := by
  induction front generalizing out with
  | nil => simp [emitPackets]
  | cons p rest ih =>
    rcases hr : rest ++ [q] with _ | ⟨x, xs⟩
    · simp at hr
    · simp only [List.cons_append, hr, emitPackets]
      rw [← hr, ih]
      simp

/-! ### Step lemmas for the stitcher -/

theorem processChunk_start_frag (st : SeqState) (ch : ChunkRec) (f : List Nat)
    (hst : st.stalled = false) (hgap : gapAt st ch.key.chunkId = false)
    (hcarry : st.carry = none) (hcp : ch.contPrev = false) (hcn : ch.contNext = true)
    (hpay : parsePackets ch.payload = some [f]) :
    processChunk st ch = ⟨st.out, some [f], some ch.key.chunkId, false⟩ := by
  rw [processChunk, hst, hgap, hpay, hcarry, hcp, hcn]
  simp [emitPackets]

theorem processChunk_plain (st : SeqState) (ch : ChunkRec) (f : List Nat)
    (hst : st.stalled = false) (hgap : gapAt st ch.key.chunkId = false)
    (hcarry : st.carry = none) (hcp : ch.contPrev = false) (hcn : ch.contNext = false)
    (hpay : parsePackets ch.payload = some [f]) :
    processChunk st ch = ⟨st.out ++ [[f]], none, some ch.key.chunkId, false⟩ := by
  rw [processChunk, hst, hgap, hpay, hcarry, hcp, hcn]
  simp [emitPackets]

theorem processChunk_join_continue (st : SeqState) (ch : ChunkRec)
    (acc : List Slice) (f : List Nat)
    (hst : st.stalled = false) (hgap : gapAt st ch.key.chunkId = false)
    (hcarry : st.carry = some acc) (hcp : ch.contPrev = true) (hcn : ch.contNext = true)
    (hpay : parsePackets ch.payload = some [f]) :
    processChunk st ch = ⟨st.out, some (acc ++ [f]), some ch.key.chunkId, false⟩ := by
  rw [processChunk, hst, hgap, hpay, hcarry, hcp, hcn]
  simp [emitPackets]

theorem processChunk_join_close (st : SeqState) (ch : ChunkRec)
    (acc : List Slice) (f : List Nat) (ps : List Slice)
    (hst : st.stalled = false) (hgap : gapAt st ch.key.chunkId = false)
    (hcarry : st.carry = some acc) (hcp : ch.contPrev = true) (hcn : ch.contNext = false)
    (hpay : parsePackets ch.payload = some (f :: ps)) :
    processChunk st ch =
      ⟨st.out ++ [acc ++ [f]] ++ ps.map (fun q => [q]), none,
       some ch.key.chunkId, false⟩ := by
  rw [processChunk, hst, hgap, hpay, hcarry, hcp, hcn]
  simp only [Bool.and_false, Bool.false_eq_true, if_false]
  rw [emitPackets_false]

/-! ### Claim C10: ReadNextTracePacket is stable at end-of-data -/

/-- C10.  Within one read pass, once ReadNextTracePacket reports no packet the
read state is unchanged and every further call also reports no packet; and on
a freshly created buffer with no chunks appended the first call already
reports no packet. -/
theorem read_next_stable_at_end :
    (∀ s : ReadState, (readNextTracePacket s).1 = none →
      (readNextTracePacket s).2 = s ∧
        (readNextTracePacket (readNextTracePacket s).2).1 = none) ∧
    (∀ sz t, TraceBuffez.create sz = some t →
      (readNextTracePacket t.beginReadState).1 = none) := by
  constructor
  · intro s h
    rcases s with ⟨pending⟩
    rcases pending with _ | ⟨p, ps⟩
    · exact ⟨rfl, rfl⟩
    · simp [readNextTracePacket] at h
  · intro sz t h
    rw [TraceBuffez.create] at h
    split at h
    · cases h
    · cases h
      rfl

theorem read_next_stable_at_end_witness :
    (readNextTracePacket (⟨[]⟩ : ReadState)).2 = (⟨[]⟩ : ReadState) ∧
      (readNextTracePacket
        (TraceBuffez.beginReadState ⟨4096, 0, [], 0⟩)).1 = none :=
  ⟨(read_next_stable_at_end.1 ⟨[]⟩ (by decide)).1,
   read_next_stable_at_end.2 4096 ⟨4096, 0, [], 0⟩ (by decide)⟩

/-! ### Claim C3: MaybePatchChunkContents result condition -/

/-- C3.  MaybePatchChunkContents returns true iff the named chunk is present
in the index and offset + 4 fits inside the chunk's payload; an offset large
enough to wrap the payload arithmetic of the C++ caller (at least 2^64 - 4,
as produced by a negative signed offset) always yields false, given that
payload lengths are below that bound. -/
theorem maybePatch_true_iff (t : TraceBuffez) (p w c off : Nat) (patch : List Nat) :
    ((t.maybePatchChunkContents p w c off patch).1 = true ↔
      ∃ e, t.entries.find? (fun e2 => decide (e2.key = ⟨p, w, c⟩)) = some e ∧
        off + kPatchLen ≤ e.payload.length) ∧
    (2 ^ 63 ≤ off → (∀ e ∈ t.entries, e.payload.length < 2 ^ 63) →
      (t.maybePatchChunkContents p w c off patch).1 = false) := by
  constructor
  · rw [TraceBuffez.maybePatchChunkContents]
    rcases hf : t.entries.find? (fun e2 => decide (e2.key = ⟨p, w, c⟩)) with _ | e
    · rw [hf]
      simp [hf]
    · rw [hf]
      simp only []
      split
      · rename_i hle
        simp only [true_iff]
        exact ⟨e, rfl, hle⟩
      · rename_i hgt
        simp only [Bool.false_eq_true, false_iff]
        intro hcon
        rcases hcon with ⟨e2, he2, hle2⟩
        cases Option.some.inj he2
        exact hgt hle2
  · intro hbig hlens
    rw [TraceBuffez.maybePatchChunkContents]
    rcases hf : t.entries.find? (fun e2 => decide (e2.key = ⟨p, w, c⟩)) with _ | e
    · rw [hf]
    · rw [hf]
      simp only []
      have hmem : e ∈ t.entries := List.mem_of_find?_eq_some hf
      have hlen := hlens e hmem
      have hnle : ¬ (off + kPatchLen ≤ e.payload.length) := by
        simp only [kPatchLen] at *
        omega
      simp [hnle]

theorem maybePatch_true_iff_witness :
    ((TraceBuffez.maybePatchChunkContents
        ⟨4096, 0, [⟨⟨2, 1, 0⟩, false, false, [8, 98, 48, 48, 45, 0, 0, 0, 0], 0, 16⟩], 0⟩
        2 1 0 5 [89, 77, 67, 65]).1 = true) ∧
    ((TraceBuffez.maybePatchChunkContents
        ⟨4096, 0, [⟨⟨1, 1, 1⟩, false, false, List.replicate 16 0, 0, 32⟩], 0⟩
        1 1 1 (2 ^ 64 - 17) [48, 100, 97, 121]).1 = false) := by
  constructor
  · exact (maybePatch_true_iff _ 2 1 0 5 _).1.mpr
      ⟨⟨⟨2, 1, 0⟩, false, false, [8, 98, 48, 48, 45, 0, 0, 0, 0], 0, 16⟩, by decide, by decide⟩
  · exact (maybePatch_true_iff _ 1 1 1 (2 ^ 64 - 17) _).2 (by decide)
      (by intro e he; simp at he; subst he; decide)

/-! ### Claim C5: malformed chunks are discarded wholly -/

/-- C5.  A zero packet length with further payload following is a parse
error, and a chunk whose payload fails to parse yields no packets at all:
the stitcher discards it, clears any pending carry-over and installs no new
carry-over, so its trailing "continues on next chunk" flag is treated as
invalid and no fragment of it is ever stitched into a later packet. -/
theorem malformed_chunk_discarded :
    (∀ (b : Nat) (bs : List Nat), parsePackets (0 :: b :: bs) = none) ∧
    (∀ (s : SeqState) (ch : ChunkRec), s.stalled = false →
      gapAt s ch.key.chunkId = false → parsePackets ch.payload = none →
      processChunk s ch = ⟨s.out, none, some ch.key.chunkId, false⟩) := by
  constructor
  · intro b bs
    simp [parsePackets, parseLoop, decodeVarint]
  · intro s ch hst hgap hparse
    rw [processChunk]
    rw [hst, hgap, hparse]
    simp

theorem malformed_chunk_discarded_witness :
    parsePackets ((⟨⟨1, 1, 0⟩, false, true, [0, 97, 48, 48, 3, 98, 48, 48], 0, 32⟩ :
        ChunkRec).payload) = none ∧
    processChunk ⟨[[[7]]], some [[9]], none, false⟩
        ⟨⟨1, 1, 0⟩, false, true, [0, 97, 48, 48, 3, 98, 48, 48], 0, 32⟩ =
      ⟨[[[7]]], none, some 0, false⟩ :=
  ⟨malformed_chunk_discarded.1 97 [48, 48, 3, 98, 48, 48],
   malformed_chunk_discarded.2 ⟨[[[7]]], some [[9]], none, false⟩
     ⟨⟨1, 1, 0⟩, false, true, [0, 97, 48, 48, 3, 98, 48, 48], 0, 32⟩
     rfl rfl (malformed_chunk_discarded.1 97 [48, 48, 3, 98, 48, 48])⟩

/-! ### Claim C7: orphaned first fragments are skipped, the rest yielded -/

/-- C7.  When a chunk's "first packet continues from previous chunk" flag is
set but the stitcher holds no carry-over, the first fragment is orphaned: it
is never yielded and never prepended to another packet, while the complete
packets that follow it in the same chunk are still yielded in order (the last
one becoming the new carry-over instead when the chunk also continues on the
next chunk). -/
theorem orphan_first_fragment_skipped (s : SeqState) (ch : ChunkRec)
    (p : Slice) (ps : List Slice) (hst : s.stalled = false)
    (hgap : gapAt s ch.key.chunkId = false) (hcarry : s.carry = none)
    (hcp : ch.contPrev = true)
    (hparse : parsePackets ch.payload = some (p :: ps)) :
    (processChunk s ch).out =
      s.out ++ (if ch.contNext then ps.dropLast else ps).map (fun q => [q]) ∧
    (ch.contNext = false → (processChunk s ch).carry = none) := by
  rw [processChunk, hst, hgap, hparse, hcarry, hcp]
  simp only [Bool.false_eq_true, if_false]
  rcases hcn : ch.contNext with _ | _
  · rw [emitPackets_false]
    simp
  · simp only [if_true]
    rcases hps : ps with _ | ⟨q, qs⟩
    · simp [emitPackets_nil]
    · have hsplit : q :: qs = (q :: qs).dropLast ++ [(q :: qs).getLast (by simp)] :=
        (List.dropLast_append_getLast (by simp)).symm
      rw [hsplit, emitPackets_true]
      simp

theorem orphan_first_fragment_skipped_witness :
    (processChunk initSeqState
        ⟨⟨1, 1, 0⟩, true, true, [1, 97, 1, 98, 1, 99, 1, 100], 0, 32⟩).out =
      [[[98]], [[99]]] := by
  have h := orphan_first_fragment_skipped initSeqState
    ⟨⟨1, 1, 0⟩, true, true, [1, 97, 1, 98, 1, 99, 1, 100], 0, 32⟩
    [97] [[98], [99], [100]] rfl rfl rfl rfl (by decide)
  rw [h.1]
  decide

/-! ### Claim C8: empty chunks are transparent inside a fragment chain -/

/-- C8.  An empty chunk (zero packets) is transparent to the stitcher: it
contributes no bytes and leaves any in-progress fragment chain intact, so a
fragment carried over from the chunk before it is stitched with the first
fragment of the chunk after it.  Concretely, a chain [first fragment f0] /
[empty chunk] / [closing fragment f1 followed by a standalone packet g]
yields the stitched packet [f0, f1] and then [g]. -/
theorem empty_chunk_transparent :
    (∀ (s : SeqState) (ch : ChunkRec), s.stalled = false →
      gapAt s ch.key.chunkId = false → ch.payload = [] →
      processChunk s ch = { s with prev := some ch.key.chunkId }) ∧
    (∀ (p w cid : Nat) (f0 f1 g : List Nat), f0 ≠ [] → f1 ≠ [] → g ≠ [] →
      cid + 3 ≤ kChunkIdModulus →
      readSequence
        [⟨⟨p, w, cid⟩, false, true, encodePacket f0, 0, 0⟩,
         ⟨⟨p, w, cid + 1⟩, false, false, [], 0, 0⟩,
         ⟨⟨p, w, cid + 2⟩, true, false, encodePacket f1 ++ encodePacket g, 0, 0⟩] =
        [[f0, f1], [g]]) := by
  constructor
  · intro s ch hst hgap hempty
    rw [processChunk, hst, hgap, hempty]
    simp [parsePackets_nil]
  · intro p w cid f0 f1 g h0 h1 hg hbound
    have hparse0 : parsePackets (encodePacket f0) = some [f0] := by
      have hx := parsePackets_encode f0 h0 [] parsePackets_nil
      simpa using hx
    have hparse2 : parsePackets (encodePacket f1 ++ encodePacket g) = some [f1, g] := by
      have hgp : parsePackets (encodePacket g) = some [g] := by
        have hx := parsePackets_encode g hg [] parsePackets_nil
        simpa using hx
      exact parsePackets_encode f1 h1 (encodePacket g) hgp
    have hmod1 : (cid + 1) % kChunkIdModulus = cid + 1 := by
      apply Nat.mod_eq_of_lt
      omega
    have hmod2 : (cid + 1 + 1) % kChunkIdModulus = cid + 2 := by
      apply Nat.mod_eq_of_lt
      omega
    have step1 : processChunk initSeqState
        ⟨⟨p, w, cid⟩, false, true, encodePacket f0, 0, 0⟩ =
        ⟨[], some [f0], some cid, false⟩ := by
      have hx := processChunk_start_frag initSeqState
        ⟨⟨p, w, cid⟩, false, true, encodePacket f0, 0, 0⟩ f0 rfl rfl rfl rfl rfl hparse0
      simpa [initSeqState] using hx
    have step2 : processChunk ⟨[], some [f0], some cid, false⟩
        ⟨⟨p, w, cid + 1⟩, false, false, [], 0, 0⟩ =
        ⟨[], some [f0], some (cid + 1), false⟩ := by
      rw [processChunk]
      simp only [gapAt, hmod1]
      simp [parsePackets_nil]
    have step3 : processChunk ⟨[], some [f0], some (cid + 1), false⟩
        ⟨⟨p, w, cid + 2⟩, true, false, encodePacket f1 ++ encodePacket g, 0, 0⟩ =
        ⟨[[f0, f1], [g]], none, some (cid + 2), false⟩ := by
      have hx := processChunk_join_close ⟨[], some [f0], some (cid + 1), false⟩
        ⟨⟨p, w, cid + 2⟩, true, false, encodePacket f1 ++ encodePacket g, 0, 0⟩
        [f0] f1 [g] rfl (by simp [gapAt, hmod2]) rfl rfl rfl hparse2
      simpa using hx
    rw [readSequence]
    simp only [List.foldl_cons, List.foldl_nil]
    rw [step1, step2, step3]

/-! ### Claim C1: fragmented packets are stitched into exactly one packet -/

theorem parsePackets_single (f : List Nat) (hf : f ≠ []) :
    parsePackets (encodePacket f) = some [f] := by
  have hx := parsePackets_encode f hf [] parsePackets_nil
  simpa using hx

theorem readTail (p w : Nat) (fs : List (List Nat)) :
    ∀ (pid : Nat) (out : List Packet) (acc : List Slice), fs ≠ [] →
      (∀ f ∈ fs, f ≠ []) → pid + 1 + fs.length ≤ kChunkIdModulus →
      List.foldl processChunk ⟨out, some acc, some pid, false⟩ (mkTail p w (pid + 1) fs) =
        ⟨out ++ [acc ++ fs], none, some (pid + fs.length), false⟩ := by
  induction fs with
  | nil => intro pid out acc hne _ _; exact absurd rfl hne
  | cons f rest ih =>
    intro pid out acc _ hnn hbound
    have hf : f ≠ [] := hnn f (by simp)
    have hpay : parsePackets (fragChunk p w (pid + 1) true true f).payload = some [f] :=
      parsePackets_single f hf
    have hgap : gapAt ⟨out, some acc, some pid, false⟩
        (fragChunk p w (pid + 1) true true f).key.chunkId = false := by
      simp only [fragChunk, gapAt]
      have hm : (pid + 1) % kChunkIdModulus = pid + 1 := by
        apply Nat.mod_eq_of_lt
        simp only [List.length_cons] at hbound
        omega
      simp [hm]
    rcases rest with _ | ⟨f2, fs2⟩
    · simp only [mkTail, List.foldl_cons, List.foldl_nil]
      have hstep := processChunk_join_close ⟨out, some acc, some pid, false⟩
        (fragChunk p w (pid + 1) true false f) acc f [] rfl
        (by simpa [fragChunk] using hgap) rfl rfl rfl (parsePackets_single f hf)
      rw [hstep]
      simp [fragChunk]
    · simp only [mkTail, List.foldl_cons]
      have hstep := processChunk_join_continue ⟨out, some acc, some pid, false⟩
        (fragChunk p w (pid + 1) true true f) acc f rfl hgap rfl rfl rfl hpay
      rw [hstep]
      have hx := ih (pid + 1) out (acc ++ [f]) (by simp)
        (fun g hg => hnn g (by simp [hg]))
        (by simp only [List.length_cons] at hbound ⊢; omega)
      simp only [fragChunk] at hx ⊢
      rw [hx]
      simp only [List.length_cons]
      have hl : acc ++ [f] ++ (f2 :: fs2) = acc ++ (f :: f2 :: fs2) := by
        simp
      have hn : pid + 1 + (fs2.length + 1) = pid + (fs2.length + 1 + 1) := by omega
      rw [hl, hn]

theorem readSequence_mkFragChunks (p w cid : Nat) (frags : List (List Nat))
    (hN : frags ≠ []) (hnn : ∀ f ∈ frags, f ≠ [])
    (hbound : cid + frags.length ≤ kChunkIdModulus) :
    readSequence (mkFragChunks p w cid frags) = [frags] := by
  rcases frags with _ | ⟨f, rest⟩
  · exact absurd rfl hN
  · have hf : f ≠ [] := hnn f (by simp)
    rcases rest with _ | ⟨f2, fs2⟩
    · rw [readSequence]
      simp only [mkFragChunks, List.foldl_cons, List.foldl_nil]
      have hstep := processChunk_plain initSeqState (fragChunk p w cid false false f) f
        rfl rfl rfl rfl rfl (parsePackets_single f hf)
      rw [hstep]
      simp [initSeqState]
    · rw [readSequence]
      simp only [mkFragChunks, List.foldl_cons]
      have hstep := processChunk_start_frag initSeqState (fragChunk p w cid false true f) f
        rfl rfl rfl rfl rfl (parsePackets_single f hf)
      rw [hstep]
      have hx := readTail p w (f2 :: fs2) cid initSeqState.out [f] (by simp)
        (fun g hg => hnn g (by simp [hg]))
        (by simp only [List.length_cons] at hbound ⊢; omega)
      simp only [fragChunk] at hx ⊢
      rw [hx]
      simp [initSeqState]

theorem keyLt_succ_id_false (p w n : Nat) :
    keyLt (⟨p, w, n + 1⟩ : Key) ⟨p, w, n⟩ = false := by
  have h1 : keyLt (⟨p, w, n + 1⟩ : Key) ⟨p, w, n⟩ = cidLt (n + 1) n := by
    simp [keyLt]
  rw [h1, cidLt, decide_eq_false_iff_not]
  intro hlt
  simp only [cidSdist] at hlt
  omega

theorem chain_cons_mkTail (p w : Nat) (fs : List (List Nat)) :
    ∀ (cid0 : Nat) (e : ChunkRec), e.key = ⟨p, w, cid0⟩ →
      List.Chain' (fun a b => keyLt b.key a.key = false) (e :: mkTail p w (cid0 + 1) fs) := by
  induction fs with
  | nil =>
    intro cid0 e _
    simp [mkTail]
  | cons f rest ih =>
    intro cid0 e he
    rcases rest with _ | ⟨f2, fs2⟩
    · simp only [mkTail]
      refine List.chain'_cons.mpr ⟨?_, ?_⟩
      · rw [he]
        exact keyLt_succ_id_false p w cid0
      · simp
    · simp only [mkTail]
      refine List.chain'_cons.mpr ⟨?_, ?_⟩
      · rw [he]
        exact keyLt_succ_id_false p w cid0
      · exact ih (cid0 + 1) (fragChunk p w (cid0 + 1) true true f) rfl

theorem mkTail_sameWriter (p w : Nat) (fs : List (List Nat)) :
    ∀ (cid : Nat), ∀ e ∈ mkTail p w cid fs,
      e.key.producerId = p ∧ e.key.writerId = w := by
  induction fs with
  | nil => intro cid e he; simp [mkTail] at he
  | cons f rest ih =>
    intro cid e he
    rcases rest with _ | ⟨f2, fs2⟩
    · simp only [mkTail, List.mem_singleton] at he
      subst he
      exact ⟨rfl, rfl⟩
    · simp only [mkTail, List.mem_cons] at he
      rcases he with he | he
      · subst he
        exact ⟨rfl, rfl⟩
      · exact ih (cid + 1) e he

theorem sortEntries_of_sorted (l : List ChunkRec)
    (h : List.Chain' (fun a b => keyLt b.key a.key = false) l) :
    sortEntries l = l := by
  induction l with
  | nil => rfl
  | cons x xs ih =>
    rw [sortEntries, ih (List.Chain'.tail h)]
    rcases xs with _ | ⟨y, ys⟩
    · rfl
    · have hxy : keyLt y.key x.key = false := (List.chain'_cons.mp h).1
      rw [insertEntry, hxy]
      simp

theorem groupSeqs_single (l : List ChunkRec) (hl : l ≠ [])
    (hsame : ∀ a ∈ l, ∀ b ∈ l, sameSeq a.key b.key = true) :
    groupSeqs l = [l] := by
  induction l with
  | nil => exact absurd rfl hl
  | cons x xs ih =>
    rcases xs with _ | ⟨y, ys⟩
    · rfl
    · have hrec : groupSeqs (y :: ys) = [y :: ys] :=
        ih (by simp) (fun a ha b hb => hsame a (by simp [ha]) b (by simp [hb]))
      rw [groupSeqs, hrec]
      have hxy : sameSeq x.key y.key = true := hsame x (by simp) y (by simp)
      simp [hxy]

theorem chainPos_weaken {sz wp : Nat} :
    ∀ {lo lo2 : Nat} {es : List ChunkRec}, lo2 ≤ lo → ChainPos sz wp lo es →
      ChainPos sz wp lo2 es := by
  intro lo lo2 es
  cases es with
  | nil => intro _ _; trivial
  | cons e tl =>
    intro hle h
    rcases h with ⟨h1, h2, h3, h4, h5, h6⟩
    exact ⟨Nat.le_trans hle h1, h2, h3, h4, h5, h6⟩

theorem chainPos_le_of_mem {sz wp : Nat} :
    ∀ {lo : Nat} {es : List ChunkRec}, ChainPos sz wp lo es →
      ∀ e ∈ es, lo ≤ ringPos sz wp e.off := by
  intro lo es
  induction es generalizing lo with
  | nil => intro _ e he; cases he
  | cons x tl ih =>
    intro h e he
    rcases h with ⟨h1, h2, h3, _, _, h6⟩
    rcases List.mem_cons.mp he with rfl | he2
    · exact h1
    · have hx := ih h6 e he2
      omega

theorem chainPos_mem_facts {sz wp : Nat} :
    ∀ {lo : Nat} {es : List ChunkRec}, ChainPos sz wp lo es →
      ∀ e ∈ es, ringPos sz wp e.off + e.recSize ≤ sz ∧ 0 < e.recSize ∧
        e.off < sz ∧ e.off + e.recSize ≤ sz := by
  intro lo es
  induction es generalizing lo with
  | nil => intro _ e he; cases he
  | cons x tl ih =>
    intro h e he
    rcases h with ⟨_, h2, h3, h4, h5, h6⟩
    rcases List.mem_cons.mp he with rfl | he2
    · exact ⟨h2, h3, h4, h5⟩
    · exact ih h6 e he2

/-- On a chain of advancing ring positions, a filter that keeps exactly the
entries at position at least T removes a time-order head of the list. -/
theorem chain_filter_drop {sz wp : Nat} (T : Nat) (q : ChunkRec → Bool) :
    ∀ (es : List ChunkRec) (lo : Nat), ChainPos sz wp lo es →
      (∀ e ∈ es, q e = true ↔ T ≤ ringPos sz wp e.off) →
      ∃ m, es.filter q = es.drop m := by
  intro es
  induction es with
  | nil => intro lo _ _; exact ⟨0, rfl⟩
  | cons e tl ih =>
    intro lo hch hq
    rcases hch with ⟨h1, h2, h3, h4, h5, h6⟩
    rcases hqe : q e with _ | _
    · rcases ih (ringPos sz wp e.off + e.recSize) h6
        (fun x hx => hq x (by simp [hx])) with ⟨m, hm⟩
      refine ⟨m + 1, ?_⟩
      rw [List.filter_cons_of_neg (by simp [hqe]), hm]
      rfl
    · refine ⟨0, ?_⟩
      rw [List.drop_zero, List.filter_cons_of_pos hqe]
      have hall : tl.filter q = tl := by
        rw [List.filter_eq_self]
        intro x hx
        have hTe : T ≤ ringPos sz wp e.off := (hq e (by simp)).mp hqe
        have hxe : ringPos sz wp e.off + e.recSize ≤ ringPos sz wp x.off :=
          chainPos_le_of_mem h6 x hx
        exact (hq x (by simp [hx])).mpr (by omega)
      rw [hall]

/-- Re-basing a chain onto the advanced cursor: if every entry's ring
position drops by exactly K when measured from the new cursor, the chain
survives with its base lowered by K. -/
theorem chainPos_rebase {sz wp wp2 K : Nat} :
    ∀ {lo : Nat} {es : List ChunkRec}, ChainPos sz wp lo es →
      (∀ e ∈ es, K ≤ ringPos sz wp e.off ∧
        ringPos sz wp2 e.off = ringPos sz wp e.off - K) →
      ChainPos sz wp2 (lo - K) es := by
  intro lo es
  induction es generalizing lo with
  | nil => intro _ _; trivial
  | cons e tl ih =>
    intro hch hrel
    rcases hch with ⟨h1, h2, h3, h4, h5, h6⟩
    rcases hrel e (by simp) with ⟨hK, hEq⟩
    refine ⟨by omega, by omega, h3, h4, h5, ?_⟩
    have hx := ih h6 (fun x hx => hrel x (by simp [hx]))
    have hge : ringPos sz wp2 e.off + e.recSize =
        ringPos sz wp e.off + e.recSize - K := by omega
    rw [hge]
    exact hx

theorem align16_ge (m : Nat) : m ≤ align16 m := by
  rw [align16]
  omega

theorem chainPos_drop {sz wp : Nat} :
    ∀ (m : Nat) {lo : Nat} {es : List ChunkRec}, ChainPos sz wp lo es →
      ChainPos sz wp lo (es.drop m) := by
  intro m
  induction m with
  | zero => intro lo es h; exact h
  | succ n ih =>
    intro lo es h
    cases es with
    | nil => trivial
    | cons e tl =>
      rcases h with ⟨h1, _, _, _, _, h6⟩
      rw [List.drop_succ_cons]
      exact ih (chainPos_weaken (by omega) h6)

theorem chainPos_append_single {sz wp : Nat} (e2 : ChunkRec) :
    ∀ {lo : Nat} {es : List ChunkRec}, ChainPos sz wp lo es →
      (∀ x ∈ es, ringPos sz wp x.off + x.recSize ≤ ringPos sz wp e2.off) →
      lo ≤ ringPos sz wp e2.off → ringPos sz wp e2.off + e2.recSize ≤ sz →
      0 < e2.recSize → e2.off < sz → e2.off + e2.recSize ≤ sz →
      ChainPos sz wp lo (es ++ [e2]) := by
  intro lo es
  induction es generalizing lo with
  | nil =>
    intro _ _ hlo hsz hpos hoff hsum
    exact ⟨hlo, hsz, hpos, hoff, hsum, trivial⟩
  | cons x tl ih =>
    intro hch hband hlo hsz hpos hoff hsum
    rcases hch with ⟨h1, h2, h3, h4, h5, h6⟩
    refine ⟨h1, h2, h3, h4, h5, ?_⟩
    exact ih h6 (fun y hy => hband y (by simp [hy])) (hband x (by simp)) hsz
      hpos hoff hsum

/-- Re-basing plus appending the new record: the common final step of an
append, for both the wrapping and the non-wrapping case. -/
theorem chain_rebuild {sz wp wp2 : Nat} (K : Nat) (k2 : Key) (cp2 cn2 : Bool)
    (pl2 : List Nat) (noff nsz : Nat) (es : List ChunkRec)
    (hch : ChainPos sz wp 0 es)
    (hmem : ∀ e ∈ es, K ≤ ringPos sz wp e.off ∧
      ringPos sz wp2 e.off = ringPos sz wp e.off - K ∧
      ringPos sz wp e.off + e.recSize ≤ K + ringPos sz wp2 noff)
    (h2a : ringPos sz wp2 noff + nsz ≤ sz) (h2b : 0 < nsz)
    (h2c : noff < sz) (h2d : noff + nsz ≤ sz) :
    ChainPos sz wp2 0 (es ++ [⟨k2, cp2, cn2, pl2, noff, nsz⟩]) := by
  have hreb := chainPos_rebase hch (fun e he => ⟨(hmem e he).1, (hmem e he).2.1⟩)
  simp only [Nat.zero_sub] at hreb
  exact chainPos_append_single ⟨k2, cp2, cn2, pl2, noff, nsz⟩ hreb
    (fun x hx => by
      rcases hmem x hx with ⟨ha, hb, hc⟩
      show ringPos sz wp2 x.off + x.recSize ≤ ringPos sz wp2 noff
      omega)
    (Nat.zero_le _) h2a h2b h2c h2d

/-- One append preserves the ring layout invariant and keeps, of the prior
records, exactly a time-order suffix: eviction by the write (including the
padding record at the tail on wrap) removes only the earliest-written
records, and never a later-written one. -/
theorem append_step_fifo (t : TraceBuffez) (k : Key) (cp cn : Bool)
    (pl : List Nat) (hwp : t.wptr < t.size)
    (hch : ChainPos t.size t.wptr 0 t.entries)
    (hfit : align16 (kChunkRecordHeaderSize + pl.length) ≤ t.size)
    (hdup : ∀ e ∈ t.entries, ¬ (e.key = k)) :
    (t.appendChunk k cp cn pl).1.size = t.size ∧
    (t.appendChunk k cp cn pl).1.wptr < t.size ∧
    ChainPos t.size (t.appendChunk k cp cn pl).1.wptr 0
      (t.appendChunk k cp cn pl).1.entries ∧
    (∃ m off2, (t.appendChunk k cp cn pl).1.entries =
      t.entries.drop m ++ [⟨k, cp, cn, pl, off2,
        align16 (kChunkRecordHeaderSize + pl.length)⟩]) ∧
    (t.appendChunk k cp cn pl).2 =
      some (align16 (kChunkRecordHeaderSize + pl.length)) := by
  have hneed16 : 16 ≤ align16 (kChunkRecordHeaderSize + pl.length) := by
    have hx := align16_ge (kChunkRecordHeaderSize + pl.length)
    have h16 : kChunkRecordHeaderSize = 16 := rfl
    omega
  have hszlt : ¬ (t.size < align16 (kChunkRecordHeaderSize + pl.length)) := by
    omega
  by_cases hwrap : t.size - t.wptr < align16 (kChunkRecordHeaderSize + pl.length)
  · -- wrap: a padding record covers [wptr, size) and the record goes to 0
    have hdecw : decide (t.size - t.wptr <
        align16 (kChunkRecordHeaderSize + pl.length)) = true := by
      simp [hwrap]
    rw [TraceBuffez.appendChunk]
    simp only [if_neg hszlt, hdecw, if_true]
    have hiff1 : ∀ e ∈ t.entries,
        (!rangesOverlap e.off e.recSize t.wptr (t.size - t.wptr)) = true ↔
          (t.size - t.wptr) ≤ ringPos t.size t.wptr e.off := by
      intro e he
      rcases chainPos_mem_facts hch e he with ⟨hf1, hf2, hf3, hf4⟩
      simp only [ringPos] at hf1 ⊢
      simp only [rangesOverlap, Bool.not_eq_true', Bool.and_eq_false_iff,
        decide_eq_false_iff_not]
      split_ifs at hf1 ⊢ with hco
      · omega
      · omega
    have hmem1 : ∀ e ∈ t.entries.filter
        (fun e => !rangesOverlap e.off e.recSize t.wptr (t.size - t.wptr)),
        e ∈ t.entries ∧ (t.size - t.wptr) ≤ ringPos t.size t.wptr e.off ∧
          e.off < t.wptr := by
      intro e he
      rcases List.mem_filter.mp he with ⟨hein, hq⟩
      have hpos := (hiff1 e hein).mp hq
      rcases chainPos_mem_facts hch e hein with ⟨hf1, hf2, hf3, hf4⟩
      refine ⟨hein, hpos, ?_⟩
      simp only [ringPos] at hpos
      split_ifs at hpos with hco
      · omega
      · omega
    have hiff2 : ∀ e ∈ t.entries.filter
        (fun e => !rangesOverlap e.off e.recSize t.wptr (t.size - t.wptr)),
        (!rangesOverlap e.off e.recSize 0
          (align16 (kChunkRecordHeaderSize + pl.length))) = true ↔
          ((t.size - t.wptr) + align16 (kChunkRecordHeaderSize + pl.length)) ≤
            ringPos t.size t.wptr e.off := by
      intro e he
      rcases hmem1 e he with ⟨hein, hpos, hoffwp⟩
      rcases chainPos_mem_facts hch e hein with ⟨hf1, hf2, hf3, hf4⟩
      simp only [ringPos] at hf1 hpos ⊢
      simp only [rangesOverlap, Bool.not_eq_true', Bool.and_eq_false_iff,
        decide_eq_false_iff_not]
      rw [if_neg (by omega)] at hpos ⊢
      rw [if_neg (by omega)] at hf1
      omega
    have hmem2 : ∀ e ∈ (t.entries.filter
        (fun e => !rangesOverlap e.off e.recSize t.wptr (t.size - t.wptr))).filter
        (fun e => !rangesOverlap e.off e.recSize 0
          (align16 (kChunkRecordHeaderSize + pl.length))),
        e ∈ t.entries ∧ e.off < t.wptr ∧
          ((t.size - t.wptr) + align16 (kChunkRecordHeaderSize + pl.length)) ≤
            ringPos t.size t.wptr e.off ∧
          align16 (kChunkRecordHeaderSize + pl.length) ≤ e.off ∧
          ringPos t.size t.wptr e.off + e.recSize ≤ t.size := by
      intro e he
      rcases List.mem_filter.mp he with ⟨hein1, hq2⟩
      rcases hmem1 e hein1 with ⟨hein, hpos1, hoffwp⟩
      have hpos2 := (hiff2 e hein1).mp hq2
      rcases chainPos_mem_facts hch e hein with ⟨hf1, hf2, hf3, hf4⟩
      refine ⟨hein, hoffwp, hpos2, ?_, hf1⟩
      simp only [ringPos] at hpos2
      rw [if_neg (by omega)] at hpos2
      omega
    have hq3 : ((t.entries.filter
        (fun e => !rangesOverlap e.off e.recSize t.wptr (t.size - t.wptr))).filter
        (fun e => !rangesOverlap e.off e.recSize 0
          (align16 (kChunkRecordHeaderSize + pl.length)))).filter
        (fun e => !decide (e.key = k)) =
        (t.entries.filter
        (fun e => !rangesOverlap e.off e.recSize t.wptr (t.size - t.wptr))).filter
        (fun e => !rangesOverlap e.off e.recSize 0
          (align16 (kChunkRecordHeaderSize + pl.length))) := by
      rw [List.filter_eq_self]
      intro e he
      simp [hdup e (hmem2 e he).1]
    rcases chain_filter_drop (t.size - t.wptr) _ t.entries 0 hch hiff1 with ⟨m1, hm1⟩
    have hch1 : ChainPos t.size t.wptr 0 (t.entries.filter
        (fun e => !rangesOverlap e.off e.recSize t.wptr (t.size - t.wptr))) := by
      rw [hm1]
      exact chainPos_drop m1 hch
    rcases chain_filter_drop ((t.size - t.wptr) +
        align16 (kChunkRecordHeaderSize + pl.length)) _ _ 0 hch1 hiff2 with ⟨m2, hm2⟩
    have hch2 : ChainPos t.size t.wptr 0 ((t.entries.filter
        (fun e => !rangesOverlap e.off e.recSize t.wptr (t.size - t.wptr))).filter
        (fun e => !rangesOverlap e.off e.recSize 0
          (align16 (kChunkRecordHeaderSize + pl.length)))) := by
      rw [hm2]
      exact chainPos_drop m2 hch1
    rw [hq3]
    have hwp2lt : (0 + align16 (kChunkRecordHeaderSize + pl.length)) % t.size <
        t.size := Nat.mod_lt _ (by omega)
    refine ⟨by trivial, hwp2lt, ?_, ⟨m1 + m2, 0, by rw [hm2, hm1, List.drop_drop]⟩, by trivial⟩
    by_cases hns : align16 (kChunkRecordHeaderSize + pl.length) < t.size
    · have hwp2 : (0 + align16 (kChunkRecordHeaderSize + pl.length)) % t.size =
          align16 (kChunkRecordHeaderSize + pl.length) := by
        rw [Nat.zero_add, Nat.mod_eq_of_lt hns]
      rw [hwp2]
      refine chain_rebuild ((t.size - t.wptr) + align16 (kChunkRecordHeaderSize + pl.length)) k cp cn pl _ _ _ hch2 ?_ ?_ ?_ ?_ ?_
      · intro e he
        rcases hmem2 e he with ⟨hein, hoffwp, hpos2, hoffge, hsum⟩
        have hnew : ringPos t.size (align16 (kChunkRecordHeaderSize + pl.length))
            (0 : Nat) = t.size - align16 (kChunkRecordHeaderSize + pl.length) := by
          simp only [ringPos]
          rw [if_neg (by omega)]
          omega
        refine ⟨hpos2, ?_, ?_⟩
        · simp only [ringPos] at hpos2 ⊢
          rw [if_neg (by omega)] at hpos2
          rw [if_pos (by omega), if_neg (by omega)]
          omega
        · simp only [hnew]
          simp only [ringPos] at hpos2 hsum ⊢
          rw [if_neg (by omega)] at hpos2 hsum ⊢
          omega
      · simp only [ringPos]
        rw [if_neg (by omega)]
        omega
      · omega
      · omega
      · omega
    · have hns2 : align16 (kChunkRecordHeaderSize + pl.length) = t.size := by omega
      have hnil : (t.entries.filter
          (fun e => !rangesOverlap e.off e.recSize t.wptr (t.size - t.wptr))).filter
          (fun e => !rangesOverlap e.off e.recSize 0
            (align16 (kChunkRecordHeaderSize + pl.length))) = [] := by
        rcases hcase : (t.entries.filter
          (fun e => !rangesOverlap e.off e.recSize t.wptr (t.size - t.wptr))).filter
          (fun e => !rangesOverlap e.off e.recSize 0
            (align16 (kChunkRecordHeaderSize + pl.length))) with _ | ⟨e, tl⟩
        · exact hcase
        · exfalso
          have he : e ∈ (t.entries.filter
            (fun e => !rangesOverlap e.off e.recSize t.wptr (t.size - t.wptr))).filter
            (fun e => !rangesOverlap e.off e.recSize 0
              (align16 (kChunkRecordHeaderSize + pl.length))) := by
            rw [hcase]
            simp
          rcases hmem2 e he with ⟨hein, hoffwp, hpos2, hoffge, hsum⟩
          rcases chainPos_mem_facts hch e hein with ⟨hx1, hx2, hoffsz, hx4⟩
          omega
      rw [hnil]
      have hwp2 : (0 + align16 (kChunkRecordHeaderSize + pl.length)) % t.size = 0 := by
        rw [Nat.zero_add, hns2, Nat.mod_self]
      rw [hwp2, List.nil_append]
      refine ⟨Nat.zero_le _, ?_, ?_, ?_, ?_, trivial⟩
      · show ringPos t.size 0 0 + align16 (kChunkRecordHeaderSize + pl.length) ≤ t.size
        simp only [ringPos]
        rw [if_pos (by omega)]
        omega
      · show 0 < align16 (kChunkRecordHeaderSize + pl.length)
        omega
      · show (0 : Nat) < t.size
        omega
      · show 0 + align16 (kChunkRecordHeaderSize + pl.length) ≤ t.size
        omega
  · -- no wrap: the record is written at the cursor
    have hdecw : decide (t.size - t.wptr <
        align16 (kChunkRecordHeaderSize + pl.length)) = false := by
      simp only [decide_eq_false_iff_not]
      omega
    rw [TraceBuffez.appendChunk]
    simp only [if_neg hszlt, hdecw, Bool.false_eq_true, if_false]
    have hiff2 : ∀ e ∈ t.entries,
        (!rangesOverlap e.off e.recSize t.wptr
          (align16 (kChunkRecordHeaderSize + pl.length))) = true ↔
          align16 (kChunkRecordHeaderSize + pl.length) ≤
            ringPos t.size t.wptr e.off := by
      intro e he
      rcases chainPos_mem_facts hch e he with ⟨hf1, hf2, hf3, hf4⟩
      simp only [ringPos] at hf1 ⊢
      simp only [rangesOverlap, Bool.not_eq_true', Bool.and_eq_false_iff,
        decide_eq_false_iff_not]
      split_ifs at hf1 ⊢ with hco
      · omega
      · omega
    have hmem2 : ∀ e ∈ t.entries.filter
        (fun e => !rangesOverlap e.off e.recSize t.wptr
          (align16 (kChunkRecordHeaderSize + pl.length))),
        e ∈ t.entries ∧
          align16 (kChunkRecordHeaderSize + pl.length) ≤
            ringPos t.size t.wptr e.off ∧
          ringPos t.size t.wptr e.off + e.recSize ≤ t.size ∧
          e.off < t.size ∧ e.off + e.recSize ≤ t.size := by
      intro e he
      rcases List.mem_filter.mp he with ⟨hein, hq⟩
      rcases chainPos_mem_facts hch e hein with ⟨hf1, hf2, hf3, hf4⟩
      exact ⟨hein, (hiff2 e hein).mp hq, hf1, hf3, hf4⟩
    have hq3 : (t.entries.filter
        (fun e => !rangesOverlap e.off e.recSize t.wptr
          (align16 (kChunkRecordHeaderSize + pl.length)))).filter
        (fun e => !decide (e.key = k)) =
        t.entries.filter
        (fun e => !rangesOverlap e.off e.recSize t.wptr
          (align16 (kChunkRecordHeaderSize + pl.length))) := by
      rw [List.filter_eq_self]
      intro e he
      simp [hdup e (hmem2 e he).1]
    rcases chain_filter_drop (align16 (kChunkRecordHeaderSize + pl.length)) _
        t.entries 0 hch hiff2 with ⟨m2, hm2⟩
    have hch2 : ChainPos t.size t.wptr 0 (t.entries.filter
        (fun e => !rangesOverlap e.off e.recSize t.wptr
          (align16 (kChunkRecordHeaderSize + pl.length)))) := by
      rw [hm2]
      exact chainPos_drop m2 hch
    rw [hq3]
    have hwp2lt : (t.wptr + align16 (kChunkRecordHeaderSize + pl.length)) % t.size <
        t.size := Nat.mod_lt _ (by omega)
    refine ⟨by trivial, hwp2lt, ?_, ⟨m2, t.wptr, by rw [hm2]⟩, by trivial⟩
    by_cases hns : t.wptr + align16 (kChunkRecordHeaderSize + pl.length) < t.size
    · have hwp2 : (t.wptr + align16 (kChunkRecordHeaderSize + pl.length)) % t.size =
          t.wptr + align16 (kChunkRecordHeaderSize + pl.length) :=
        Nat.mod_eq_of_lt hns
      rw [hwp2]
      refine chain_rebuild (align16 (kChunkRecordHeaderSize + pl.length)) k cp cn pl _ _ _ hch2 ?_ ?_ ?_ ?_ ?_
      · intro e he
        rcases hmem2 e he with ⟨hein, hpos, hsum, hoffsz, hoffsum⟩
        have hnew : ringPos t.size
            (t.wptr + align16 (kChunkRecordHeaderSize + pl.length)) t.wptr =
            t.size - align16 (kChunkRecordHeaderSize + pl.length) := by
          simp only [ringPos]
          rw [if_neg (by omega)]
          omega
        refine ⟨hpos, ?_, ?_⟩
        · simp only [ringPos] at hpos ⊢
          split_ifs at hpos ⊢ <;> omega
        · simp only [hnew]
          simp only [ringPos] at hpos hsum ⊢
          split_ifs at hpos hsum ⊢ <;> omega
      · simp only [ringPos]
        rw [if_neg (by omega)]
        omega
      · omega
      · omega
      · omega
    · have hns2 : t.wptr + align16 (kChunkRecordHeaderSize + pl.length) = t.size := by
        omega
      have hwp2 : (t.wptr + align16 (kChunkRecordHeaderSize + pl.length)) % t.size
          = 0 := by
        rw [hns2, Nat.mod_self]
      rw [hwp2]
      refine chain_rebuild (align16 (kChunkRecordHeaderSize + pl.length)) k cp cn pl _ _ _ hch2 ?_ ?_ ?_ ?_ ?_
      · intro e he
        rcases hmem2 e he with ⟨hein, hpos, hsum, hoffsz, hoffsum⟩
        have hnew : ringPos t.size 0 t.wptr = t.wptr := by
          simp only [ringPos]
          rw [if_pos (by omega)]
          omega
        refine ⟨hpos, ?_, ?_⟩
        · simp only [ringPos] at hpos ⊢
          split_ifs at hpos ⊢ <;> omega
        · simp only [hnew]
          simp only [ringPos] at hpos hsum ⊢
          split_ifs at hpos hsum ⊢ <;> omega
      · simp only [ringPos]
        rw [if_pos (by omega)]
        omega
      · omega
      · omega
      · omega

/-! ### Claim C9: the fill-till-end scenario -/

theorem encodeVarint_494 : encodeVarint 494 = [238, 3] := by
  rw [encodeVarint_unfold]
  norm_num
  decide

theorem encodeVarint_1006 : encodeVarint 1006 = [238, 7] := by
  rw [encodeVarint_unfold]
  norm_num
  decide

theorem encodeVarint_2030 : encodeVarint 2030 = [238, 15] := by
  rw [encodeVarint_unfold]
  norm_num
  decide

theorem payLen_494 (a : Nat) : (encodePacket (List.replicate 494 a)).length = 496 := by
  rw [encodePacket, List.length_append]
  simp only [List.length_replicate]
  rw [encodeVarint_494]
  rfl

theorem payLen_1006 (a : Nat) : (encodePacket (List.replicate 1006 a)).length = 1008 := by
  rw [encodePacket, List.length_append]
  simp only [List.length_replicate]
  rw [encodeVarint_1006]
  rfl

theorem payLen_2030 (a : Nat) : (encodePacket (List.replicate 2030 a)).length = 2032 := by
  rw [encodePacket, List.length_append]
  simp only [List.length_replicate]
  rw [encodeVarint_2030]
  rfl

/-- Evaluation of one append in the common case: the record fits before the
end of the store, overlaps no live record and duplicates no key. -/
theorem appendChunk_eval (sz wp : Nat) (es : List ChunkRec) (so : Nat) (k : Key)
    (cp cn : Bool) (pl : List Nat) (need : Nat)
    (hneed : align16 (kChunkRecordHeaderSize + pl.length) = need)
    (hsz : ¬ (sz < need)) (hfit : ¬ (sz - wp < need))
    (hkeep : ∀ e ∈ es, rangesOverlap e.off e.recSize wp need = false)
    (hdup : ∀ e ∈ es, ¬ (e.key = k)) :
    TraceBuffez.appendChunk ⟨sz, wp, es, so⟩ k cp cn pl =
      (⟨sz, (wp + need) % sz, es ++ [⟨k, cp, cn, pl, wp, need⟩], so⟩, some need) := by
  rw [TraceBuffez.appendChunk]
  simp only [hneed]
  rw [if_neg hsz]
  have hw : decide (sz - wp < need) = false := by simp [hfit]
  simp only [hw, Bool.false_eq_true, if_false]
  have hf2 : es.filter (fun e => !rangesOverlap e.off e.recSize wp need) = es := by
    rw [List.filter_eq_self]
    intro a ha
    simp [hkeep a ha]
  have hc2 : es.countP (fun e => rangesOverlap e.off e.recSize wp need) = 0 := by
    rw [List.countP_eq_zero]
    intro a ha
    simp [hkeep a ha]
  have hf3 : es.filter (fun e => !decide (e.key = k)) = es := by
    rw [List.filter_eq_self]
    intro a ha
    simp [hdup a ha]
  have hc3 : es.countP (fun e => decide (e.key = k)) = 0 := by
    rw [List.countP_eq_zero]
    intro a ha
    simp [hdup a ha]
  rw [hf2, hc2, hf3, hc3]
  simp

theorem appendMany_four (c0 c1 c2 c3 : List Nat)
    (hl0 : c0.length = 496) (hl1 : c1.length = 496)
    (hl2 : c2.length = 1008) (hl3 : c3.length = 2032) :
    TraceBuffez.appendMany ⟨4096, 0, [], 0⟩
      [(⟨1, 1, 0⟩, false, false, c0), (⟨1, 1, 1⟩, false, false, c1),
       (⟨1, 1, 2⟩, false, false, c2), (⟨1, 1, 3⟩, false, false, c3)] =
      (⟨4096, 0,
        [⟨⟨1, 1, 0⟩, false, false, c0, 0, 512⟩,
         ⟨⟨1, 1, 1⟩, false, false, c1, 512, 512⟩,
         ⟨⟨1, 1, 2⟩, false, false, c2, 1024, 1024⟩,
         ⟨⟨1, 1, 3⟩, false, false, c3, 2048, 2048⟩], 0⟩,
       [some 512, some 512, some 1024, some 2048]) := by
  have s1 := appendChunk_eval 4096 0 [] 0 ⟨1, 1, 0⟩ false false c0 512
    (by rw [hl0]; decide) (by decide) (by decide) (by intro e he; cases he)
    (by intro e he; cases he)
  have s2 := appendChunk_eval 4096 512 [⟨⟨1, 1, 0⟩, false, false, c0, 0, 512⟩] 0
    ⟨1, 1, 1⟩ false false c1 512
    (by rw [hl1]; decide) (by decide) (by decide)
    (by
      intro e he
      rcases List.mem_singleton.mp he with rfl
      simp [rangesOverlap])
    (by
      intro e he
      rcases List.mem_singleton.mp he with rfl
      simp)
  have s3 := appendChunk_eval 4096 1024
    [⟨⟨1, 1, 0⟩, false, false, c0, 0, 512⟩,
     ⟨⟨1, 1, 1⟩, false, false, c1, 512, 512⟩] 0
    ⟨1, 1, 2⟩ false false c2 1024
    (by rw [hl2]; decide) (by decide) (by decide)
    (by
      intro e he
      rcases List.mem_cons.mp he with rfl | he2
      · simp [rangesOverlap]
      · rcases List.mem_singleton.mp he2 with rfl
        simp [rangesOverlap])
    (by
      intro e he
      rcases List.mem_cons.mp he with rfl | he2
      · simp
      · rcases List.mem_singleton.mp he2 with rfl
        simp)
  have s4 := appendChunk_eval 4096 2048
    [⟨⟨1, 1, 0⟩, false, false, c0, 0, 512⟩,
     ⟨⟨1, 1, 1⟩, false, false, c1, 512, 512⟩,
     ⟨⟨1, 1, 2⟩, false, false, c2, 1024, 1024⟩] 0
    ⟨1, 1, 3⟩ false false c3 2048
    (by rw [hl3]; decide) (by decide) (by decide)
    (by
      intro e he
      rcases List.mem_cons.mp he with rfl | he2
      · simp [rangesOverlap]
      · rcases List.mem_cons.mp he2 with rfl | he3
        · simp [rangesOverlap]
        · rcases List.mem_singleton.mp he3 with rfl
          simp [rangesOverlap])
    (by
      intro e he
      rcases List.mem_cons.mp he with rfl | he2
      · simp
      · rcases List.mem_cons.mp he2 with rfl | he3
        · simp
        · rcases List.mem_singleton.mp he3 with rfl
          simp)
  rw [TraceBuffez.appendMany]
  simp only [s1]
  rw [TraceBuffez.appendMany]
  simp only [List.nil_append, s2]
  rw [TraceBuffez.appendMany]
  simp only [List.cons_append, List.nil_append, s3]
  rw [TraceBuffez.appendMany]
  simp only [List.cons_append, List.nil_append, s4]
  rw [TraceBuffez.appendMany]

/-- Evaluation of a full read pass over four unfragmented chunks of one
writer sequence with consecutive chunk ids. -/
theorem beginRead_four_plain (sz wp so : Nat) (c0 c1 c2 c3 : List Nat)
    (h0 : c0 ≠ []) (h1 : c1 ≠ []) (h2 : c2 ≠ []) (h3 : c3 ≠ [])
    (o0 o1 o2 o3 r0 r1 r2 r3 : Nat) :
    TraceBuffez.beginRead ⟨sz, wp,
      [⟨⟨1, 1, 0⟩, false, false, encodePacket c0, o0, r0⟩,
       ⟨⟨1, 1, 1⟩, false, false, encodePacket c1, o1, r1⟩,
       ⟨⟨1, 1, 2⟩, false, false, encodePacket c2, o2, r2⟩,
       ⟨⟨1, 1, 3⟩, false, false, encodePacket c3, o3, r3⟩], so⟩ =
      [[c0], [c1], [c2], [c3]] := by
  rw [TraceBuffez.beginRead]
  have hchain : List.Chain' (fun a b => keyLt b.key a.key = false)
      [⟨⟨1, 1, 0⟩, false, false, encodePacket c0, o0, r0⟩,
       ⟨⟨1, 1, 1⟩, false, false, encodePacket c1, o1, r1⟩,
       ⟨⟨1, 1, 2⟩, false, false, encodePacket c2, o2, r2⟩,
       (⟨⟨1, 1, 3⟩, false, false, encodePacket c3, o3, r3⟩ : ChunkRec)] := by
    refine List.chain'_cons.mpr ⟨by simp [keyLt, cidLt, cidSdist], ?_⟩
    refine List.chain'_cons.mpr ⟨by simp [keyLt, cidLt, cidSdist], ?_⟩
    exact List.chain'_cons.mpr ⟨by simp [keyLt, cidLt, cidSdist], List.chain'_singleton _⟩
  rw [sortEntries_of_sorted _ hchain]
  rw [groupSeqs_single _ (by simp) (by
    intro a ha b hb
    simp only [List.mem_cons, List.not_mem_nil, or_false] at ha hb
    rcases ha with rfl | rfl | rfl | rfl <;> rcases hb with rfl | rfl | rfl | rfl <;>
      simp [sameSeq])]
  simp only [List.map_cons, List.map_nil, List.flatten_cons, List.flatten_nil,
    List.append_nil]
  rw [readSequence]
  simp only [List.foldl_cons, List.foldl_nil]
  have q1 : processChunk initSeqState
      ⟨⟨1, 1, 0⟩, false, false, encodePacket c0, o0, r0⟩ =
      ⟨[[c0]], none, some 0, false⟩ := by
    have hx := processChunk_plain initSeqState
      ⟨⟨1, 1, 0⟩, false, false, encodePacket c0, o0, r0⟩ c0 rfl rfl rfl rfl rfl
      (parsePackets_single _ h0)
    simpa [initSeqState] using hx
  have q2 : processChunk ⟨[[c0]], none, some 0, false⟩
      ⟨⟨1, 1, 1⟩, false, false, encodePacket c1, o1, r1⟩ =
      ⟨[[c0], [c1]], none, some 1, false⟩ := by
    have hx := processChunk_plain ⟨[[c0]], none, some 0, false⟩
      ⟨⟨1, 1, 1⟩, false, false, encodePacket c1, o1, r1⟩ c1 rfl (by simp [gapAt, kChunkIdModulus]) rfl rfl rfl
      (parsePackets_single _ h1)
    simpa using hx
  have q3 : processChunk ⟨[[c0], [c1]], none, some 1, false⟩
      ⟨⟨1, 1, 2⟩, false, false, encodePacket c2, o2, r2⟩ =
      ⟨[[c0], [c1], [c2]], none, some 2, false⟩ := by
    have hx := processChunk_plain ⟨[[c0], [c1]], none, some 1, false⟩
      ⟨⟨1, 1, 2⟩, false, false, encodePacket c2, o2, r2⟩ c2 rfl (by simp [gapAt, kChunkIdModulus]) rfl rfl rfl
      (parsePackets_single _ h2)
    simpa using hx
  have q4 : processChunk ⟨[[c0], [c1], [c2]], none, some 2, false⟩
      ⟨⟨1, 1, 3⟩, false, false, encodePacket c3, o3, r3⟩ =
      ⟨[[c0], [c1], [c2], [c3]], none, some 3, false⟩ := by
    have hx := processChunk_plain ⟨[[c0], [c1], [c2]], none, some 2, false⟩
      ⟨⟨1, 1, 3⟩, false, false, encodePacket c3, o3, r3⟩ c3 rfl (by simp [gapAt, kChunkIdModulus]) rfl rfl rfl
      (parsePackets_single _ h3)
    simpa using hx
  rw [q1, q2, q3, q4]

/-- C9.  In a 4096-byte buffer, appending four chunks of aligned record
sizes 512, 512, 1024 and 2048 (chunk ids 0..3, one writer) returns exactly
those 16-byte-aligned record sizes (header plus payload), wraps the write
cursor so that the bytes remaining until the end of the store equal 4096,
and a read pass yields exactly the four packets in order, whose encoded
sizes (varint length header plus payload, i.e. the chunk payload sizes) are
496, 496, 1008 and 2032. -/
theorem fill_till_end_scenario :
    TraceBuffez.create 4096 = some ⟨4096, 0, [], 0⟩ ∧
    (TraceBuffez.appendMany ⟨4096, 0, [], 0⟩
      [(⟨1, 1, 0⟩, false, false, encodePacket (List.replicate 494 97)),
       (⟨1, 1, 1⟩, false, false, encodePacket (List.replicate 494 98)),
       (⟨1, 1, 2⟩, false, false, encodePacket (List.replicate 1006 99)),
       (⟨1, 1, 3⟩, false, false, encodePacket (List.replicate 2030 100))]).2 =
      [some 512, some 512, some 1024, some 2048] ∧
    (TraceBuffez.appendMany ⟨4096, 0, [], 0⟩
      [(⟨1, 1, 0⟩, false, false, encodePacket (List.replicate 494 97)),
       (⟨1, 1, 1⟩, false, false, encodePacket (List.replicate 494 98)),
       (⟨1, 1, 2⟩, false, false, encodePacket (List.replicate 1006 99)),
       (⟨1, 1, 3⟩, false, false, encodePacket (List.replicate 2030 100))]).1.sizeToEnd
      = 4096 ∧
    (TraceBuffez.appendMany ⟨4096, 0, [], 0⟩
      [(⟨1, 1, 0⟩, false, false, encodePacket (List.replicate 494 97)),
       (⟨1, 1, 1⟩, false, false, encodePacket (List.replicate 494 98)),
       (⟨1, 1, 2⟩, false, false, encodePacket (List.replicate 1006 99)),
       (⟨1, 1, 3⟩, false, false, encodePacket (List.replicate 2030 100))]).1.beginRead
      = [[List.replicate 494 97], [List.replicate 494 98],
         [List.replicate 1006 99], [List.replicate 2030 100]] ∧
    (encodePacket (List.replicate 494 97)).length = 496 ∧
    (encodePacket (List.replicate 494 98)).length = 496 ∧
    (encodePacket (List.replicate 1006 99)).length = 1008 ∧
    (encodePacket (List.replicate 2030 100)).length = 2032 := by
  have hmany := appendMany_four (encodePacket (List.replicate 494 97))
    (encodePacket (List.replicate 494 98)) (encodePacket (List.replicate 1006 99))
    (encodePacket (List.replicate 2030 100))
    (payLen_494 97) (payLen_494 98) (payLen_1006 99) (payLen_2030 100)
  refine ⟨by decide, ?_, ?_, ?_, payLen_494 97, payLen_494 98, payLen_1006 99,
    payLen_2030 100⟩
  · rw [hmany]
  · rw [hmany]
    rfl
  · rw [hmany]
    exact beginRead_four_plain 4096 0 0 _ _ _ _
      (List.ne_nil_of_length_pos (by rw [List.length_replicate]; omega))
      (List.ne_nil_of_length_pos (by rw [List.length_replicate]; omega))
      (List.ne_nil_of_length_pos (by rw [List.length_replicate]; omega))
      (List.ne_nil_of_length_pos (by rw [List.length_replicate]; omega))
      0 512 1024 2048 512 512 1024 2048

/-! ### Claim C6: duplicate (producer, writer, chunk_id) submissions -/

theorem beginRead_single_plain (sz wp so off rsz : Nat) (k : Key)
    (content : List Nat) (hcont : content ≠ []) :
    TraceBuffez.beginRead
      ⟨sz, wp, [⟨k, false, false, encodePacket content, off, rsz⟩], so⟩ =
      [[content]] := by
  rw [TraceBuffez.beginRead]
  have h1 : sortEntries [⟨k, false, false, encodePacket content, off, rsz⟩] =
      [⟨k, false, false, encodePacket content, off, rsz⟩] := rfl
  have h2 : groupSeqs [⟨k, false, false, encodePacket content, off, rsz⟩] =
      [[⟨k, false, false, encodePacket content, off, rsz⟩]] := rfl
  rw [h1, h2]
  simp only [List.map_cons, List.map_nil, List.flatten_cons, List.flatten_nil]
  rw [readSequence]
  simp only [List.foldl_cons, List.foldl_nil]
  rw [processChunk_plain initSeqState _ content rfl rfl rfl rfl rfl
    (parsePackets_single content hcont)]
  simp [initSeqState]

/-- C6.  When a chunk arrives with the same (producer_id, writer_id,
chunk_id) as a record already present, the earlier record is removed from
the index and only the newest survives — in the index and in reads — and
the chunks-overwritten counter increments exactly once for the displaced
duplicate (stated for a buffer holding exactly the earlier record, with the
new record fitting before the end of the store without touching the old
record's bytes). -/
theorem duplicate_chunk_id_overwrites (t : TraceBuffez) (eOld : ChunkRec)
    (k : Key) (content : List Nat) (hcont : content ≠ [])
    (hentries : t.entries = [eOld]) (hkey : eOld.key = k)
    (hfit : align16 (kChunkRecordHeaderSize + (encodePacket content).length) ≤
      t.size - t.wptr)
    (hnov : rangesOverlap eOld.off eOld.recSize t.wptr
      (align16 (kChunkRecordHeaderSize + (encodePacket content).length)) = false) :
    (t.appendChunk k false false (encodePacket content)).1.entries =
      [⟨k, false, false, encodePacket content, t.wptr,
        align16 (kChunkRecordHeaderSize + (encodePacket content).length)⟩] ∧
    (t.appendChunk k false false (encodePacket content)).1.statsOverwritten =
      t.statsOverwritten + 1 ∧
    (t.appendChunk k false false (encodePacket content)).2 =
      some (align16 (kChunkRecordHeaderSize + (encodePacket content).length)) ∧
    (t.appendChunk k false false (encodePacket content)).1.beginRead =
      [[content]] := by
  have hsz : ¬ (t.size <
      align16 (kChunkRecordHeaderSize + (encodePacket content).length)) := by
    have hx := Nat.sub_le t.size t.wptr
    omega
  have hwr : decide (t.size - t.wptr <
      align16 (kChunkRecordHeaderSize + (encodePacket content).length)) = false := by
    simp only [decide_eq_false_iff_not]
    omega
  have hkeep : (!rangesOverlap eOld.off eOld.recSize t.wptr
      (align16 (kChunkRecordHeaderSize + (encodePacket content).length))) = true := by
    rw [hnov]
    rfl
  have hdup : decide (eOld.key = k) = true := by
    simp [hkey]
  have happ : t.appendChunk k false false (encodePacket content) =
      ({ size := t.size,
         wptr := (t.wptr +
           align16 (kChunkRecordHeaderSize + (encodePacket content).length)) % t.size,
         entries := [⟨k, false, false, encodePacket content, t.wptr,
           align16 (kChunkRecordHeaderSize + (encodePacket content).length)⟩],
         statsOverwritten := t.statsOverwritten + 1 },
       some (align16 (kChunkRecordHeaderSize + (encodePacket content).length))) := by
    rw [TraceBuffez.appendChunk]
    simp only [hentries, hwr, if_neg hsz, Bool.false_eq_true, if_false,
      List.filter_cons, List.filter_nil, List.countP_cons, List.countP_nil,
      hkeep, hnov, hdup, if_true]
    simp [hkey]
  rw [happ]
  refine ⟨rfl, rfl, rfl, ?_⟩
  exact beginRead_single_plain _ _ _ _ _ k content hcont

theorem duplicate_chunk_id_overwrites_witness :
    (TraceBuffez.appendChunk
        ⟨4096, 2064, [⟨⟨1, 1, 0⟩, false, false, encodePacket [97], 0, 2064⟩], 0⟩
        ⟨1, 1, 0⟩ false false (encodePacket [98, 99])).1.entries =
      [⟨⟨1, 1, 0⟩, false, false, encodePacket [98, 99], 2064, 32⟩] ∧
    (TraceBuffez.appendChunk
        ⟨4096, 2064, [⟨⟨1, 1, 0⟩, false, false, encodePacket [97], 0, 2064⟩], 0⟩
        ⟨1, 1, 0⟩ false false (encodePacket [98, 99])).1.statsOverwritten = 1 ∧
    (TraceBuffez.appendChunk
        ⟨4096, 2064, [⟨⟨1, 1, 0⟩, false, false, encodePacket [97], 0, 2064⟩], 0⟩
        ⟨1, 1, 0⟩ false false (encodePacket [98, 99])).1.beginRead =
      [[[98, 99]]] := by
  have h := duplicate_chunk_id_overwrites
    ⟨4096, 2064, [⟨⟨1, 1, 0⟩, false, false, encodePacket [97], 0, 2064⟩], 0⟩
    ⟨⟨1, 1, 0⟩, false, false, encodePacket [97], 0, 2064⟩ ⟨1, 1, 0⟩ [98, 99]
    (by decide) rfl rfl (by decide) (by decide)
  rcases h with ⟨h1, h2, _, h4⟩
  refine ⟨?_, ?_, ?_⟩
  · rw [h1]
    decide
  · rw [h2]
  · rw [h4]

/-! ### Claim C4: index order equals modular chunk-id order -/

theorem mem_insertEntry (e : ChunkRec) (l : List ChunkRec) (a : ChunkRec) :
    a ∈ insertEntry e l ↔ a = e ∨ a ∈ l := by
  induction l with
  | nil => simp [insertEntry]
  | cons x xs ih =>
    rw [insertEntry]
    split
    · simp only [List.mem_cons, ih]
      tauto
    · simp [List.mem_cons]

theorem mem_sortEntries (l : List ChunkRec) (a : ChunkRec) :
    a ∈ sortEntries l ↔ a ∈ l := by
  induction l with
  | nil => simp [sortEntries]
  | cons x xs ih =>
    rw [sortEntries, mem_insertEntry]
    simp [ih]

theorem cidLt_asymm (a b : Nat) (h : cidLt a b = true) : cidLt b a = false := by
  rw [cidLt, decide_eq_true_eq] at h
  rw [cidLt, decide_eq_false_iff_not]
  simp only [cidSdist] at h ⊢
  omega

theorem keyLt_asymm (a b : Key) (h : keyLt a b = true) : keyLt b a = false := by
  rw [keyLt] at h ⊢
  by_cases hp : a.producerId = b.producerId
  · rw [if_neg (fun hc => hc hp)] at h
    rw [if_neg (fun hc => hc hp.symm)]
    by_cases hw : a.writerId = b.writerId
    · rw [if_neg (fun hc => hc hw)] at h
      rw [if_neg (fun hc => hc hw.symm)]
      exact cidLt_asymm _ _ h
    · rw [if_pos hw] at h
      rw [if_pos (fun hc => hw hc.symm)]
      simp only [decide_eq_true_eq] at h
      simp only [decide_eq_false_iff_not]
      omega
  · rw [if_pos hp] at h
    rw [if_pos (fun hc => hp hc.symm)]
    simp only [decide_eq_true_eq] at h
    simp only [decide_eq_false_iff_not]
    omega

theorem pairwise_insertEntry (L : List ChunkRec)
    (htrans : ∀ a ∈ L, ∀ b ∈ L, ∀ c ∈ L, keyLt a.key b.key = false →
      keyLt b.key c.key = false → keyLt a.key c.key = false)
    (e : ChunkRec) (he : e ∈ L) :
    ∀ (l : List ChunkRec), (∀ x ∈ l, x ∈ L) →
      l.Pairwise (fun a b => keyLt b.key a.key = false) →
      (insertEntry e l).Pairwise (fun a b => keyLt b.key a.key = false) := by
  intro l
  induction l with
  | nil =>
    intro _ _
    simp [insertEntry]
  | cons x xs ih =>
    intro hsub hpw
    rcases List.pairwise_cons.mp hpw with ⟨hx, hxs⟩
    rw [insertEntry]
    split
    · rename_i hlt
      refine List.pairwise_cons.mpr ⟨?_, ih (fun y hy => hsub y (by simp [hy])) hxs⟩
      intro y hy
      rcases (mem_insertEntry e xs y).mp hy with rfl | hy2
      · exact keyLt_asymm _ _ hlt
      · exact hx y hy2
    · rename_i hnlt
      have hxe : keyLt x.key e.key = false := Bool.not_eq_true _ ▸ eq_false_of_ne_true hnlt
      refine List.pairwise_cons.mpr ⟨?_, hpw⟩
      intro y hy
      rcases List.mem_cons.mp hy with rfl | hy2
      · exact hxe
      · exact htrans y (hsub y (by simp [hy2])) x (hsub x (by simp)) e he
          (hx y hy2) hxe

theorem sortEntries_pairwise (L : List ChunkRec)
    (htrans : ∀ a ∈ L, ∀ b ∈ L, ∀ c ∈ L, keyLt a.key b.key = false →
      keyLt b.key c.key = false → keyLt a.key c.key = false) :
    ∀ (l : List ChunkRec), (∀ x ∈ l, x ∈ L) →
      (sortEntries l).Pairwise (fun a b => keyLt b.key a.key = false) := by
  intro l
  induction l with
  | nil =>
    intro _
    simp [sortEntries]
  | cons x xs ih =>
    intro hsub
    rw [sortEntries]
    exact pairwise_insertEntry L htrans x (hsub x (by simp)) (sortEntries xs)
      (fun y hy => hsub y (by simp [(mem_sortEntries xs y).mp hy]))
      (ih (fun y hy => hsub y (by simp [hy])))

theorem sameSeq_spec (a b : Key) :
    sameSeq a b = true ↔ a.producerId = b.producerId ∧ a.writerId = b.writerId := by
  simp [sameSeq]

/-- C4.  For any two index entries of the same (producer_id, writer_id)
sequence, index order equals modular chunk-id order: whenever one entry
precedes another in the sorted index view, its chunk id precedes the other
under the signed-modular-distance comparison, so the per-writer read
iterator visits chunk ids in sequence even across the wrap of the chunk-id
counter.  (The hypotheses say that the comparator is well behaved on this
buffer's entries: not-less-than is transitive, and same-sequence entries
with distinct ids are comparable — true whenever each writer sequence stays
within half the chunk-id space, which wrapping sequences do.) -/
theorem index_order_modular (t : TraceBuffez)
    (htrans : ∀ a ∈ t.entries, ∀ b ∈ t.entries, ∀ c ∈ t.entries,
      keyLt a.key b.key = false → keyLt b.key c.key = false →
      keyLt a.key c.key = false)
    (hcomp : ∀ a ∈ t.entries, ∀ b ∈ t.entries, sameSeq a.key b.key = true →
      a.key.chunkId ≠ b.key.chunkId →
      cidLt a.key.chunkId b.key.chunkId = true ∨
        cidLt b.key.chunkId a.key.chunkId = true) :
    (sortEntries t.entries).Pairwise (fun a b => sameSeq a.key b.key = true →
      a.key.chunkId ≠ b.key.chunkId →
      cidLt a.key.chunkId b.key.chunkId = true) := by
  have hpw := sortEntries_pairwise t.entries htrans t.entries (fun x hx => hx)
  refine List.Pairwise.imp_of_mem ?_ hpw
  intro a b ha hb hR hsame hneq
  have ha2 : a ∈ t.entries := (mem_sortEntries _ _).mp ha
  have hb2 : b ∈ t.entries := (mem_sortEntries _ _).mp hb
  rcases hcomp a ha2 b hb2 hsame hneq with h | h
  · exact h
  · exfalso
    rcases (sameSeq_spec a.key b.key).mp hsame with ⟨hp, hw⟩
    have hgt : keyLt b.key a.key = true := by
      rw [keyLt, if_neg (fun hc => hc hp.symm), if_neg (fun hc => hc hw.symm)]
      exact h
    rw [hR] at hgt
    cases hgt

theorem index_order_modular_witness :
    (sortEntries [⟨⟨1, 1, 1⟩, false, false, [], 48, 16⟩,
                  ⟨⟨1, 1, 4294967295⟩, false, false, [], 16, 16⟩,
                  ⟨⟨1, 1, 2⟩, false, false, [], 64, 16⟩,
                  ⟨⟨1, 1, 4294967294⟩, false, false, [], 0, 16⟩,
                  ⟨⟨1, 1, 0⟩, false, false, [], 32, 16⟩]).Pairwise
      (fun a b => sameSeq a.key b.key = true →
        a.key.chunkId ≠ b.key.chunkId →
        cidLt a.key.chunkId b.key.chunkId = true) :=
  index_order_modular
    ⟨4096, 80,
     [⟨⟨1, 1, 1⟩, false, false, [], 48, 16⟩,
      ⟨⟨1, 1, 4294967295⟩, false, false, [], 16, 16⟩,
      ⟨⟨1, 1, 2⟩, false, false, [], 64, 16⟩,
      ⟨⟨1, 1, 4294967294⟩, false, false, [], 0, 16⟩,
      ⟨⟨1, 1, 0⟩, false, false, [], 32, 16⟩], 0⟩
    (by decide) (by decide)

/-- C1.  For every packet fragmented over N >= 1 chunks of the same
(producer_id, writer_id) sequence, all present in the buffer at read time
with the matching continues-on-next / continues-from-previous flags, the
read pass yields exactly one packet whose slices, in order, equal the
fragment payloads. -/
theorem fragmented_packet_stitched (p w cid sz wp so : Nat)
    (frags : List (List Nat)) (hN : frags ≠ []) (hnn : ∀ f ∈ frags, f ≠ [])
    (hbound : cid + frags.length ≤ kChunkIdModulus) :
    TraceBuffez.beginRead ⟨sz, wp, mkFragChunks p w cid frags, so⟩ = [frags] := by
  have hchain : List.Chain' (fun a b => keyLt b.key a.key = false)
      (mkFragChunks p w cid frags) := by
    rcases frags with _ | ⟨f, rest⟩
    · exact absurd rfl hN
    · rcases rest with _ | ⟨f2, fs2⟩
      · simp [mkFragChunks]
      · simp only [mkFragChunks]
        exact chain_cons_mkTail p w (f2 :: fs2) cid
          (fragChunk p w cid false true f) rfl
  have hsameW : ∀ e ∈ mkFragChunks p w cid frags,
      e.key.producerId = p ∧ e.key.writerId = w := by
    rcases frags with _ | ⟨f, rest⟩
    · intro e he; simp [mkFragChunks] at he
    · rcases rest with _ | ⟨f2, fs2⟩
      · intro e he
        simp only [mkFragChunks, List.mem_singleton] at he
        subst he
        exact ⟨rfl, rfl⟩
      · intro e he
        simp only [mkFragChunks, List.mem_cons] at he
        rcases he with he | he
        · subst he; exact ⟨rfl, rfl⟩
        · exact mkTail_sameWriter p w (f2 :: fs2) (cid + 1) e he
  have hne : mkFragChunks p w cid frags ≠ [] := by
    rcases frags with _ | ⟨f, rest⟩
    · exact absurd rfl hN
    · rcases rest with _ | ⟨f2, fs2⟩ <;> simp [mkFragChunks]
  rw [TraceBuffez.beginRead]
  simp only []
  rw [sortEntries_of_sorted _ hchain]
  rw [groupSeqs_single _ hne (fun a ha b hb => by
    rcases hsameW a ha with ⟨hap, haw⟩
    rcases hsameW b hb with ⟨hbp, hbw⟩
    simp [sameSeq, hap, haw, hbp, hbw])]
  simp only [List.map_cons, List.map_nil, List.flatten_cons, List.flatten_nil]
  rw [readSequence_mkFragChunks p w cid frags hN hnn hbound]
  simp

theorem fragmented_packet_stitched_witness :
    TraceBuffez.beginRead ⟨4096, 0, mkFragChunks 1 1 0 [[10], [20], [30]], 0⟩ =
      [[[10], [20], [30]]] :=
  fragmented_packet_stitched 1 1 0 4096 0 0 [[10], [20], [30]]
    (by decide) (by decide) (by decide)

theorem empty_chunk_transparent_witness :
    processChunk ⟨[], some [[5]], some 0, false⟩ ⟨⟨1, 1, 1⟩, false, false, [], 0, 16⟩ =
      ⟨[], some [[5]], some 1, false⟩ ∧
    readSequence
      [⟨⟨1, 1, 0⟩, false, true, encodePacket [10], 0, 0⟩,
       ⟨⟨1, 1, 1⟩, false, false, [], 0, 0⟩,
       ⟨⟨1, 1, 2⟩, true, false, encodePacket [20] ++ encodePacket [30], 0, 0⟩] =
      [[[10], [20]], [[30]]] :=
  ⟨empty_chunk_transparent.1 ⟨[], some [[5]], some 0, false⟩
      ⟨⟨1, 1, 1⟩, false, false, [], 0, 16⟩ rfl rfl rfl,
   empty_chunk_transparent.2 1 1 0 [10] [20] [30]
      (by decide) (by decide) (by decide) (by decide)⟩

/-! ### Claim C2: eviction is strictly FIFO in physical buffer order -/

theorem drop_append_suffix {α : Type} (P Q : List α) (m : Nat) :
    ∃ m2, P.drop m ++ Q = (P ++ Q).drop m2 := by
  by_cases hm : m ≤ P.length
  · exact ⟨m, (List.drop_append_of_le_length hm).symm⟩
  · refine ⟨P.length, ?_⟩
    have h1 : P.drop m = [] := List.drop_eq_nil_of_le (by omega)
    rw [h1, List.nil_append, List.drop_left]

theorem map_quad_eta (rs : List (Key × Bool × Bool × List Nat)) :
    rs.map (fun r => (r.1, r.2.1, r.2.2.1, r.2.2.2)) = rs := by
  induction rs with
  | nil => rfl
  | cons r rest ih => simp only [List.map_cons, ih, Prod.mk.eta]

/-- Running any request list over a buffer whose records form a ring chain
keeps, in the ledger, a suffix of "prior records then the new requests": no
append ever evicts a later-written record without evicting every record
written before it. -/
theorem appendMany_fifo_aux (rs : List (Key × Bool × Bool × List Nat)) :
    ∀ t : TraceBuffez, t.wptr < t.size →
      ChainPos t.size t.wptr 0 t.entries →
      (∀ r ∈ rs, align16 (kChunkRecordHeaderSize + r.2.2.2.length) ≤ t.size) →
      (∀ r ∈ rs, ∀ e ∈ t.entries, ¬ (e.key = r.1)) →
      (rs.map (fun r => r.1)).Nodup →
      ∃ n, ((t.appendMany rs).1.entries).map
          (fun e => (e.key, e.contPrev, e.contNext, e.payload)) =
        (t.entries.map (fun e => (e.key, e.contPrev, e.contNext, e.payload)) ++
          rs.map (fun r => (r.1, r.2.1, r.2.2.1, r.2.2.2))).drop n := by
  induction rs with
  | nil =>
    intro t _ _ _ _ _
    exact ⟨0, by simp [TraceBuffez.appendMany]⟩
  | cons r rest ih =>
    intro t hwp hch hfit hdup hnd
    have hr : r ∈ r :: rest := by simp
    obtain ⟨hsz, hwp2, hch2, ⟨m, off2, hm⟩, _⟩ :=
      append_step_fifo t r.1 r.2.1 r.2.2.1 r.2.2.2 hwp hch (hfit r hr)
        (fun e he => hdup r hr e he)
    set step := t.appendChunk r.1 r.2.1 r.2.2.1 r.2.2.2 with hstep
    have hnd2 := hnd
    rw [List.map_cons, List.nodup_cons] at hnd2
    have hwp2b : step.1.wptr < step.1.size := by rw [hsz]; exact hwp2
    have hch2b : ChainPos step.1.size step.1.wptr 0 step.1.entries := by
      rw [hsz]; exact hch2
    have hfit2 : ∀ r2 ∈ rest,
        align16 (kChunkRecordHeaderSize + r2.2.2.2.length) ≤ step.1.size := by
      intro r2 hr2
      rw [hsz]
      exact hfit r2 (List.mem_cons_of_mem _ hr2)
    have hdup2 : ∀ r2 ∈ rest, ∀ e ∈ step.1.entries, ¬ (e.key = r2.1) := by
      intro r2 hr2 e he
      rw [hm] at he
      rcases List.mem_append.mp he with he1 | he2
      · exact hdup r2 (List.mem_cons_of_mem _ hr2) e (List.mem_of_mem_drop he1)
      · have hee : e = ⟨r.1, r.2.1, r.2.2.1, r.2.2.2, off2,
            align16 (kChunkRecordHeaderSize + r.2.2.2.length)⟩ := by
          simpa using he2
        subst hee
        intro hk
        have hk2 : r.1 = r2.1 := hk
        exact hnd2.1 (List.mem_map.mpr ⟨r2, hr2, hk2.symm⟩)
    obtain ⟨n, hn⟩ := ih step.1 hwp2b hch2b hfit2 hdup2 hnd2.2
    have hview : step.1.entries.map
        (fun e => (e.key, e.contPrev, e.contNext, e.payload)) =
        (t.entries.map (fun e => (e.key, e.contPrev, e.contNext, e.payload))).drop m
          ++ [(r.1, r.2.1, r.2.2.1, r.2.2.2)] := by
      rw [hm]
      simp [List.map_drop]
    obtain ⟨m2, hm2⟩ := drop_append_suffix
      (t.entries.map (fun e => (e.key, e.contPrev, e.contNext, e.payload)))
      ((r.1, r.2.1, r.2.2.1, r.2.2.2) ::
        rest.map (fun r2 => (r2.1, r2.2.1, r2.2.2.1, r2.2.2.2))) m
    show ∃ n2, ((step.1.appendMany rest).1.entries).map
        (fun e => (e.key, e.contPrev, e.contNext, e.payload)) =
      (t.entries.map (fun e => (e.key, e.contPrev, e.contNext, e.payload)) ++
        ((r :: rest).map (fun r2 => (r2.1, r2.2.1, r2.2.2.1, r2.2.2.2)))).drop n2
    refine ⟨m2 + n, ?_⟩
    rw [hn, hview, List.map_cons, List.append_assoc, List.singleton_append,
      hm2, List.drop_drop]

/-- C2: for every sequence of appends to a freshly created buffer — each
record fitting the store, keys pairwise distinct — the readable ledger
afterwards is a suffix of the append sequence ordered by time of write:
wrapping appends (with the padding record at the tail) evict exactly the
earliest-written records and never a later-written one. -/
theorem eviction_fifo_suffix (sz : Nat) (t0 : TraceBuffez)
    (h0 : TraceBuffez.create sz = some t0)
    (rs : List (Key × Bool × Bool × List Nat))
    (hfit : ∀ r ∈ rs, align16 (kChunkRecordHeaderSize + r.2.2.2.length) ≤ t0.size)
    (hkeys : (rs.map (fun r => r.1)).Nodup) :
    ∃ n, ((t0.appendMany rs).1.entries).map
        (fun e => (e.key, e.contPrev, e.contNext, e.payload)) = rs.drop n := by
  rw [TraceBuffez.create] at h0
  by_cases hsz : sz < 4096
  · rw [if_pos hsz] at h0; cases h0
  · rw [if_neg hsz] at h0
    have ht0 : t0 = ⟨align16 sz, 0, [], 0⟩ := (Option.some_inj.mp h0).symm
    have hwp : t0.wptr < t0.size := by
      rw [ht0]
      show 0 < align16 sz
      have := align16_ge sz
      omega
    have hch : ChainPos t0.size t0.wptr 0 t0.entries := by
      rw [ht0]
      exact trivial
    have hdup : ∀ r ∈ rs, ∀ e ∈ t0.entries, ¬ (e.key = r.1) := by
      rw [ht0]
      intro r _ e he
      cases he
    obtain ⟨n, hn⟩ := appendMany_fifo_aux rs t0 hwp hch hfit hdup hkeys
    refine ⟨n, ?_⟩
    rw [hn, ht0]
    simp [map_quad_eta]

theorem eviction_fifo_suffix_witness :
    ∃ n, ((TraceBuffez.appendMany ⟨4096, 0, [], 0⟩
        [(⟨1, 1, 0⟩, false, false, [7]), (⟨1, 1, 1⟩, false, false, [8]),
         (⟨1, 1, 2⟩, false, false, [9])]).1.entries).map
        (fun e => (e.key, e.contPrev, e.contNext, e.payload)) =
      ([(⟨1, 1, 0⟩, false, false, [7]), (⟨1, 1, 1⟩, false, false, [8]),
        (⟨1, 1, 2⟩, false, false, [9])] :
        List (Key × Bool × Bool × List Nat)).drop n :=
  eviction_fifo_suffix 4096 ⟨4096, 0, [], 0⟩ (by decide) _ (by decide) (by decide)

end Perfetto
